import Mathlib

/-!
Verification development for the incremental trajectory writer of
`parcels/particlefile/baseparticlefile.py` (parquet branch).

The writer state, the deletion-subset resolution, the identity registry,
the observation-counter table and the chunk construction are embedded as
executable Lean definitions, translated line by line from
`BaseParticleFile.__init__` and `BaseParticleFile.write`.
-/

namespace ParcelsPF

/-! ## Numeric element types and fill values (source lines 96-105) -/

/-- The numpy element types appearing as keys of `fmt_map`/`fill_value_map`. -/
inductive NpDtype where
  | float16 | float32 | float64 | bool_ | int8 | int16 | int32 | int64
  | uint8 | uint16 | uint32 | uint64
deriving DecidableEq

/-- A fill value is either the floating not-a-number sentinel or an integer. -/
inductive FillValue where
  | nan : FillValue
  | intVal : Nat → FillValue
deriving DecidableEq

/-- `self.fmt_map` (source lines 96-99): storage format per element type.
Note `np.bool_` is stored as `'i1'`, a signed 8-bit integer. -/
def fmt_map : NpDtype → String
  | .float16 => "f2" | .float32 => "f4" | .float64 => "f8"
  | .bool_ => "i1" | .int8 => "i1" | .int16 => "i2"
  | .int32 => "i4" | .int64 => "i8" | .uint8 => "u1"
  | .uint16 => "u2" | .uint32 => "u4" | .uint64 => "u8"

/-- `self.fill_value_map` (source lines 100-105): floating types map to NaN;
`np.bool_` and `np.int8` map to `np.iinfo(np.int8).max`; every other integer
type maps to `np.iinfo(that type).max`. -/
def fill_value_map : NpDtype → FillValue
  | .float16 => .nan | .float32 => .nan | .float64 => .nan
  | .bool_ => .intVal (2 ^ 7 - 1)
  | .int8 => .intVal (2 ^ 7 - 1)
  | .int16 => .intVal (2 ^ 15 - 1)
  | .int32 => .intVal (2 ^ 31 - 1)
  | .int64 => .intVal (2 ^ 63 - 1)
  | .uint8 => .intVal (2 ^ 8 - 1)
  | .uint16 => .intVal (2 ^ 16 - 1)
  | .uint32 => .intVal (2 ^ 32 - 1)
  | .uint64 => .intVal (2 ^ 64 - 1)

/-- Modelled from the spec: "integer and boolean types fill with their type's
maximum representable value" (floating types fill with NaN).  The maximum
value representable in a boolean is `True`, i.e. `1`; for the integer types it
is the usual two's complement / unsigned maximum.  This definition follows the
spec's words and is compared against `fill_value_map`, which is translated
from the source. -/
def specFillValue : NpDtype → FillValue
  | .float16 => .nan | .float32 => .nan | .float64 => .nan
  | .bool_ => .intVal 1
  | .int8 => .intVal (2 ^ 7 - 1)
  | .int16 => .intVal (2 ^ 15 - 1)
  | .int32 => .intVal (2 ^ 31 - 1)
  | .int64 => .intVal (2 ^ 63 - 1)
  | .uint8 => .intVal (2 ^ 8 - 1)
  | .uint16 => .intVal (2 ^ 16 - 1)
  | .uint32 => .intVal (2 ^ 32 - 1)
  | .uint64 => .intVal (2 ^ 64 - 1)

/-- Classification of `NpDtype` constructors: the three floating types. -/
def NpDtype.isFloat : NpDtype → Bool
  | .float16 => true | .float32 => true | .float64 => true
  | _ => false

/-! ## External particle collection (collaborator, modelled shallowly) -/

/-- One particle of the external collection: its unique integer identity
(`id` in the source, `pid` here), its status code (`state`), the per-particle
`once_written` flag, and the values of its other variables, looked up by
variable name. -/
structure Particle where
  pid : Nat
  state : Nat
  once_written : Nat
  data : String → Int

instance : Inhabited Particle := ⟨⟨0, 0, 0, fun _ => 0⟩⟩

/-- The external `ParticleSet`: the list of active particles (positional
indices are the collection indices used by `getvardata`) together with the
`_to_write_particles` query, which for a given time returns the indices of
particles due for periodic output. -/
structure PSet where
  particles : List Particle
  toWrite : Int → List Nat

/-- `pset.collection` positional access with numpy-style integer indices. -/
def getP (pset : PSet) (i : Nat) : Particle := pset.particles.getD i default

/-- `getvardata('id', idx)`: identities of the particles at positions `idx`. -/
def pidsOf (pset : PSet) (idx : List Nat) : List Nat :=
  idx.map fun i => (getP pset i).pid

/-- `OperationCode.Delete` of `parcels.tools.statuscodes` (external constant,
only compared for equality in the source). -/
def opDelete : Nat := 4

/-! ## The polymorphic `deleted_only` argument (source lines 232-241) -/

/-- The `deleted_only` argument of `write`: `False`, the flag `True`/`1`, a
numpy array, or a python list. -/
inductive DeletedArg where
  | noDelete : DeletedArg
  | allDeleted : DeletedArg
  | arr : List Nat → DeletedArg
  | lst : List Nat → DeletedArg
deriving DecidableEq

/-- `np.where(mask)[0]` for an indicator vector: positions with a nonzero
entry. -/
def whereTrue (xs : List Nat) : List Nat :=
  (List.range xs.length).filter fun j => decide (xs.getD j 0 ≠ 0)

/-- Resolution of a non-`False` `deleted_only` value to an index set
(source lines 232-241): the flag resolves via the state-equality query
against `OperationCode.Delete`; an array whose values form a subset of
`{0, 1}` is an indicator and resolves to the positions where it is nonzero;
any other array, and every python list, passes through as explicit indices. -/
def resolveDeletedOnly (pset : PSet) : DeletedArg → List Nat
  | .noDelete => []
  | .allDeleted =>
      (List.range pset.particles.length).filter fun i =>
        decide ((getP pset i).state = opDelete)
  | .arr xs => if xs.all fun x => decide (x ≤ 1) then whereTrue xs else xs
  | .lst xs => xs

/-! ## Writer state -/

/-- One output variable retained in `self.vars_to_write`, together with its
write cadence (`once = true` iff `ptype[var].to_write == 'once'`). -/
structure VarDecl where
  name : String
  dtype : NpDtype
  once : Bool
deriving DecidableEq

/-- One persisted parquet chunk `p%03d.parquet`: its sequence number, the
two-level row key `(trajectory, obs)` in row order, the identities whose
write-once values this chunk carries, and the fetched data columns. -/
structure Chunk where
  seq : Nat
  index : List (Nat × Nat)
  oncePids : List Nat
  columns : List (String × List Int)
deriving DecidableEq

/-- The mutable state of a `BaseParticleFile` (single-process branch):
`write_ondelete`, `lasttime_written`, `maxids`, `obs_written`,
`pids_written` (an association list standing for the python dict),
`nfiles`, `vars_to_write`, and the chunks persisted so far in emission
order (the contents of the output directory). -/
structure WriterState where
  write_ondelete : Bool
  lasttime_written : Option Int
  maxids : Nat
  obs_written : List Nat
  pids_written : List (Nat × Nat)
  nfiles : Nat
  vars_to_write : List VarDecl
  chunks : List Chunk

/-- Dictionary lookup in `pids_written`. -/
def lookupId (pid : Nat) : List (Nat × Nat) → Option Nat
  | [] => none
  | e :: rest => if pid = e.1 then some e.2 else lookupId pid rest

/-- `_convert_varout_name` (source lines 202-208). -/
def convertVaroutName (var : String) : String :=
  if var = "depth" then "z" else if var = "id" then "trajectory" else var

/-- `sorted(set(pids) - set(self.pids_written.keys()))` (source line 248):
the not-yet-registered identities of the batch, in ascending order. -/
def newIdsOf (reg : List (Nat × Nat)) (pids : List Nat) : List Nat :=
  ((pids.filter fun p => (lookupId p reg).isNone).dedup).insertionSort (· ≤ ·)

/-- The dict-update loop `for i, pid in enumerate(to_add):
self.pids_written[pid] = self.maxids + i` (source lines 249-250), as the list
of new key/value pairs. -/
def assignFrom (m : Nat) : List Nat → List (Nat × Nat)
  | [] => []
  | p :: ps => (p, m) :: assignFrom (m + 1) ps

/-- `self.obs_written[np.array(ids)] += 1` (source line 289): numpy fancy
indexing increments each position that occurs in `ids` by exactly one. -/
def bumpFrom (ids : List Nat) (k : Nat) : List Nat → List Nat
  | [] => []
  | x :: xs => (if k ∈ ids then x + 1 else x) :: bumpFrom ids (k + 1) xs

/-- `setvardata('once_written', indices_to_write_once, ones)` (source line
257): set the flag to 1 at the given collection positions. -/
def setOnceFrom (idxOnce : List Nat) (k : Nat) : List Particle → List Particle
  | [] => []
  | p :: ps =>
      (if k ∈ idxOnce then { p with once_written := 1 } else p) ::
        setOnceFrom idxOnce (k + 1) ps

/-- The registry after a batch with identities `pids` has been processed:
`sorted(set(pids) - keys)` gets appended with values `maxids, maxids+1, ...`
(source lines 248-250). -/
def regAfter (st : WriterState) (pids : List Nat) : List (Nat × Nat) :=
  st.pids_written ++ assignFrom st.maxids (newIdsOf st.pids_written pids)

/-- `ids = np.array([self.pids_written[p] for p in pids])` (source line 251),
evaluated against the updated registry. -/
def idsAfter (st : WriterState) (pids : List Nat) : List Nat :=
  pids.map fun p => (lookupId p (regAfter st pids)).getD 0

/-- The observation-counter table as read during a write (source lines
269-273): reinitialised to zeros of the batch length on the first emission
(`nfiles == 0`; note `len(ids) = len(pids)`), then zero-extended whenever
the updated `maxids` exceeds its length. -/
def obsGrown (st : WriterState) (pids : List Nat) : List Nat :=
  let obs0 := if st.nfiles = 0 then List.replicate pids.length 0 else st.obs_written
  if (regAfter st pids).length > obs0.length then
    obs0 ++ List.replicate ((regAfter st pids).length - obs0.length) 0
  else obs0

/-- `indices_to_write_once` (source line 254-256): the selected positions
whose once-written flag is still unset. -/
def onceFilter (pset : PSet) (idx : List Nat) : List Nat :=
  idx.filter fun i => decide ((getP pset i).once_written = 0)

/-- `obs = self.obs_written[np.array(ids)]` (source line 275): the
observation-counter column of the new chunk. -/
def obsOf (st : WriterState) (pids : List Nat) : List Nat :=
  (idsAfter st pids).map fun i => (obsGrown st pids).getD i 0

/-- The body of `write` once a nonempty index set has been selected
(source lines 246-289): register new identities, filter the write-once
subset, set the once-written flags, assemble the data columns and the
`(trajectory, obs)` index, persist the chunk, and advance the observation
counters. -/
def emitChunk (st : WriterState) (pset : PSet) (idx : List Nat) :
    WriterState × PSet × Chunk :=
  let pids := pidsOf pset idx
  let idxOnce := onceFilter pset idx
  let cols := st.vars_to_write.filterMap fun v =>
    let varout := convertVaroutName v.name
    if varout = "trajectory" then none
    else some (varout, (if v.once then idxOnce else idx).map fun i => (getP pset i).data v.name)
  let c : Chunk := ⟨st.nfiles, pids.zip (obsOf st pids), pidsOf pset idxOnce, cols⟩
  (⟨st.write_ondelete, st.lasttime_written, (regAfter st pids).length,
     bumpFrom (idsAfter st pids) 0 (obsGrown st pids),
     regAfter st pids, st.nfiles + 1, st.vars_to_write, st.chunks ++ [c]⟩,
   { pset with particles := setOnceFrom idxOnce 0 pset.particles }, c)

/-- The index selection of `write` (source lines 232-243): with a deletion
subset, resolve it; otherwise query `_to_write_particles`. -/
def selIdx (pset : PSet) (time : Int) (d : DeletedArg) : List Nat :=
  if d = DeletedArg.noDelete then pset.toWrite time else resolveDeletedOnly pset d

/-- The full result of one `write` call: the new writer state, the (possibly
flag-mutated) external collection, the emitted chunk if any, and whether the
empty-set warning was logged. -/
structure WriteResult where
  st : WriterState
  pset : PSet
  emitted : Option Chunk
  warned : Bool

/-- The writer state after the selection branch ran but before any chunk is
assembled: a periodic call (`deleted_only is False`) records
`self.lasttime_written = time` (source line 244); a deletion-subset call
leaves it untouched. -/
def st1Of (st : WriterState) (time : Int) (d : DeletedArg) : WriterState :=
  if d = DeletedArg.noDelete then
    ⟨st.write_ondelete, some time, st.maxids, st.obs_written, st.pids_written,
      st.nfiles, st.vars_to_write, st.chunks⟩
  else st

/-- `BaseParticleFile.write` (source lines 213-289).  The outer gate is
`self.lasttime_written != time and (self.write_ondelete is False or
deleted_only is not False)`; inside it, an empty collection warns and
returns; a periodic call records `lasttime_written` before testing whether
the selected index set is nonempty; a nonempty selection runs the chunk
body. -/
def write (st : WriterState) (pset : PSet) (time : Int) (d : DeletedArg) :
    WriteResult :=
  if st.lasttime_written ≠ some time ∧ (st.write_ondelete = false ∨ d ≠ DeletedArg.noDelete) then
    if pset.particles.length = 0 then ⟨st, pset, none, true⟩
    else if 0 < (selIdx pset time d).length then
      ⟨(emitChunk (st1Of st time d) pset (selIdx pset time d)).1,
       (emitChunk (st1Of st time d) pset (selIdx pset time d)).2.1,
       some ((emitChunk (st1Of st time d) pset (selIdx pset time d)).2.2), false⟩
    else ⟨st1Of st time d, pset, none, false⟩
  else ⟨st, pset, none, false⟩

/-! ## Constructor (source lines 65-136) -/

/-- The `to_write` field of a schema variable: `False`, `True`, or `'once'`. -/
inductive WriteFlag where
  | no : WriteFlag
  | every : WriteFlag
  | once : WriteFlag
deriving DecidableEq

/-- One entry of `particleset.collection.ptype.variables`. -/
structure PtypeVar where
  name : String
  dtype : NpDtype
  to_write : WriteFlag
deriving DecidableEq

/-- The constructor loop `for var in ptype.variables: if var.to_write: ...`
(source lines 82-84) combined with the `write_once` classification
(source lines 210-211). -/
def varsToWrite (ptype : List PtypeVar) : List VarDecl :=
  ptype.filterMap fun v =>
    match v.to_write with
    | .no => none
    | .every => some ⟨v.name, v.dtype, false⟩
    | .once => some ⟨v.name, v.dtype, true⟩

/-- The writer state as initialised by `__init__` (source lines 65-84 and
131): empty registry, zero counters, `lasttime_written = None`,
`nfiles = 0`. -/
def initState (wod : Bool) (ptype : List PtypeVar) : WriterState :=
  ⟨wod, none, 0, [], [], 0, varsToWrite ptype, []⟩

/-- `particleset.collection.setallvardata('once_written', 0)` (source line
88): reset the once-written flag of every particle. -/
def setAllOnceZero (pset : PSet) : PSet :=
  { pset with particles := pset.particles.map fun p => { p with once_written := 0 } }

/-- Constructing a `BaseParticleFile` over a particle set: writer state from
`initState` and the collection with all once-written flags reset. -/
def constructParticleFile (wod : Bool) (ptype : List PtypeVar) (pset : PSet) :
    WriterState × PSet :=
  (initState wod ptype, setAllOnceZero pset)

/-! ## Output directory creation (source lines 114-136, single process) -/

/-- The accepted parquet extensions (source line 116). -/
def validExtensions : List String := [".parquet", ".pqt", ".parq"]

/-- A flat model of the relevant part of the filesystem: directory paths with
the chunk files inside them. -/
structure DirStore where
  entries : List (String × List String)
deriving DecidableEq

/-- `Path(...).exists()`. -/
def dirExists (fs : DirStore) (p : String) : Bool :=
  fs.entries.any fun e => decide (e.1 = p)

/-- `shutil.rmtree(parquet_folder)`: the whole tree at the path vanishes. -/
def rmtree (fs : DirStore) (p : String) : DirStore :=
  ⟨fs.entries.filter fun e => decide (e.1 ≠ p)⟩

/-- `parquet_folder.mkdir(parents=True)`: a fresh empty directory. -/
def mkdirP (fs : DirStore) (p : String) : DirStore :=
  ⟨fs.entries ++ [(p, [])]⟩

/-- Contents of the directory at a path, if present. -/
def dirContents (fs : DirStore) (p : String) : Option (List String) :=
  (fs.entries.find? fun e => decide (e.1 = p)).map Prod.snd

/-- The extension dispatch and directory setup of `__init__` (source lines
114-136), single-process branch: parquet extensions pass, NetCDF and zarr
are rejected with a fatal error, anything else is rejected; then the
existing directory, if any, is removed whole and recreated empty. -/
def initOutputTarget (name : String) (ext : String) (fs : DirStore) :
    Except String (String × DirStore) :=
  if ext ∈ validExtensions then
    let fname := name
    let fs1 := if dirExists fs fname then rmtree fs fname else fs
    .ok (fname, mkdirP fs1 fname)
  else if ext = ".nc" ∨ ext = ".nc4" then
    .error "Output in NetCDF is not supported anymore. Use .parquet extension for ParticleFile name."
  else if ext = ".zarr" then
    .error "Output in zarr is not supported anymore. Use .parquet extension for ParticleFile name."
  else
    .error "Output format not supported. Use .parquet extension for ParticleFile name."

/-! ## Metadata attributes (source lines 143-182) -/

/-- The `_FillValue` entries of `_create_variables_attribute_dict` (source
lines 150-180): the `trajectory` attribute carries the int64 fill value, and
every non-reserved output variable carries the fill value of its element
type.  The reserved names come from the abstract `_reserved_var_names`. -/
def variableAttrFills (reserved : List String) (st : WriterState) :
    List (String × FillValue) :=
  ("trajectory", fill_value_map .int64) ::
    st.vars_to_write.filterMap fun v =>
      if v.name ∈ reserved then none
      else some (v.name, fill_value_map v.dtype)

/-! ## Multi-call runs -/

/-- One simulation step between writes: the simulation may mutate the
collection (`mutate`), then the writer is called with a time and a
`deleted_only` argument. -/
structure SimStep where
  mutate : PSet → PSet
  time : Int
  d : DeletedArg

/-- Running a sequence of simulation steps, threading writer state and
collection. -/
def runSim (st : WriterState) (pset : PSet) : List SimStep → WriterState × PSet
  | [] => (st, pset)
  | s :: rest =>
      let r := write st (s.mutate pset) s.time s.d
      runSim r.st r.pset rest

/-- Contract of a single call (spec section 7, invariant violations are the
caller's responsibility): the identities of the selected particles are
pairwise distinct. -/
def validCall (pset : PSet) (time : Int) (d : DeletedArg) : Bool :=
  decide (pidsOf pset (selIdx pset time d)).Nodup

/-- A run in which every call satisfies `validCall`. -/
def validRun (st : WriterState) (pset : PSet) : List SimStep → Bool
  | [] => true
  | s :: rest =>
      validCall (s.mutate pset) s.time s.d &&
        validRun (write st (s.mutate pset) s.time s.d).st
          (write st (s.mutate pset) s.time s.d).pset rest

/-- The trajectory of one identity: its observation-index values across all
chunks, in emission order and row order. -/
def trajOf (pid : Nat) : List Chunk → List Nat
  | [] => []
  | c :: cs => ((c.index.filter fun r => decide (r.1 = pid)).map Prod.snd) ++ trajOf pid cs

/-- The observation counter currently associated with an identity:
`obs_written` at its local index, `0` if the identity is unregistered. -/
def counterOf (st : WriterState) (pid : Nat) : Nat :=
  match lookupId pid st.pids_written with
  | none => 0
  | some i => st.obs_written.getD i 0

/-- The chunks, in emission order, that contain a row for `pid`. -/
def selChunksOf (pid : Nat) (cs : List Chunk) : List Chunk :=
  cs.filter fun c => decide (pid ∈ c.index.map Prod.fst)

/-- The chunks, in emission order, that carry write-once values for `pid`. -/
def onceChunksOf (pid : Nat) (cs : List Chunk) : List Chunk :=
  cs.filter fun c => decide (pid ∈ c.oncePids)

/-- Contract of one call for the write-once analysis: every selected
collection index is in range. -/
def validCallW (pset : PSet) (time : Int) (d : DeletedArg) : Bool :=
  (selIdx pset time d).all fun i => decide (i < pset.particles.length)

/-- A simulation step that keeps the population aligned: same size, same
identities at the same positions, and the once-written flags untouched
(they are owned by the writer). -/
def tameStep (pset : PSet) (s : SimStep) : Bool :=
  decide ((s.mutate pset).particles.length = pset.particles.length) &&
  (List.range pset.particles.length).all fun j =>
    decide ((getP (s.mutate pset) j).pid = (getP pset j).pid) &&
    decide ((getP (s.mutate pset) j).once_written = (getP pset j).once_written)

/-- A run whose steps are tame and whose calls select in-range indices. -/
def validRunW (st : WriterState) (pset : PSet) : List SimStep → Bool
  | [] => true
  | s :: rest =>
      tameStep pset s && validCallW (s.mutate pset) s.time s.d &&
        validRunW (write st (s.mutate pset) s.time s.d).st
          (write st (s.mutate pset) s.time s.d).pset rest

/-! ## Concrete sample data used by the witnesses -/

/-- A particle with identity `n`, neutral state, unset flag, zero data. -/
def demoP (n : Nat) : Particle := ⟨n, 0, 0, fun _ => 0⟩

/-- Two particles with identities 1 and 2, all due for output. -/
def demoPSet2 : PSet := ⟨[demoP 1, demoP 2], fun _ => [0, 1]⟩

/-- Three particles with identities 1, 2, 3, all due for output. -/
def demoPSet3 : PSet := ⟨[demoP 1, demoP 2, demoP 3], fun _ => [0, 1, 2]⟩

/-- The end-to-end scenario of the spec: write at `t = 0` over `{1, 2}`,
then at `t = 1` over `{1, 2, 3}`. -/
def demoSteps : List SimStep :=
  [⟨fun p => p, 0, .noDelete⟩, ⟨fun _ => demoPSet3, 1, .noDelete⟩]

/-- An empty particle set for the C7 witness. -/
def demoEmpty : PSet := ⟨[], fun _ => []⟩

/-- An existing output folder with one stale chunk, for the C9 witness. -/
def demoFS : DirStore := ⟨[("out.parquet", ["p000.parquet"])]⟩

/-- A particle set whose flags were already set by a previous writer, for the
C10 witness. -/
def demoFlagged : PSet := ⟨[⟨1, 0, 1, fun _ => 0⟩, ⟨2, 0, 1, fun _ => 0⟩], fun _ => [0, 1]⟩

/-- Identities 10, 11, 12 ("A, B, C"), then 13 ("D") alongside re-observed
11 ("B"), for the C4 witness. -/
def demoABC : PSet := ⟨[demoP 10, demoP 11, demoP 12], fun _ => [0, 1, 2]⟩

/-- Two periodic writes over the same two-particle population, for the C2
witness. -/
def demoSteps2 : List SimStep :=
  [⟨fun p => p, 0, DeletedArg.noDelete⟩, ⟨fun p => p, 1, DeletedArg.noDelete⟩]

/-- A writer configured with one write-once float variable, for the C6
witness. -/
def demoVarsState : WriterState := initState false [⟨"age", .float32, .once⟩]

/-! ## Lemmas about the registry association list -/

theorem lookupId_eq_none {p : Nat} {l : List (Nat × Nat)} :
    lookupId p l = none ↔ p ∉ l.map Prod.fst := by
  induction l with
  | nil => simp [lookupId]
  | cons e rest ih =>
      by_cases h : p = e.1 <;> simp [lookupId, h, ih]

theorem lookupId_append_of_some {p v : Nat} {a b : List (Nat × Nat)}
    (h : lookupId p a = some v) : lookupId p (a ++ b) = some v := by
  induction a with
  | nil => simp [lookupId] at h
  | cons e rest ih =>
      by_cases hp : p = e.1
      · simpa [lookupId, hp] using by simpa [lookupId, hp] using h
      · simp only [lookupId, if_neg hp] at h ⊢
        exact ih h

theorem lookupId_append_of_none {p : Nat} {a b : List (Nat × Nat)}
    (h : lookupId p a = none) : lookupId p (a ++ b) = lookupId p b := by
  induction a with
  | nil => simp
  | cons e rest ih =>
      by_cases hp : p = e.1
      · simp [lookupId, hp] at h
      · simp only [lookupId, if_neg hp] at h ⊢
        exact ih h

theorem lookupId_mem_snd {p v : Nat} {l : List (Nat × Nat)}
    (h : lookupId p l = some v) : v ∈ l.map Prod.snd := by
  induction l with
  | nil => simp [lookupId] at h
  | cons e rest ih =>
      by_cases hp : p = e.1
      · simp only [lookupId, if_pos hp, Option.some.injEq] at h
        simp [← h]
      · simp only [lookupId, if_neg hp] at h
        simp [ih h]

theorem lookupId_mem_fst {p v : Nat} {l : List (Nat × Nat)}
    (h : lookupId p l = some v) : p ∈ l.map Prod.fst := by
  by_contra hc
  rw [← lookupId_eq_none] at hc
  rw [hc] at h
  exact Option.noConfusion h

/-- With pairwise distinct values, the registry lookup is injective. -/
theorem lookupId_inj {l : List (Nat × Nat)} (hv : (l.map Prod.snd).Nodup)
    {p q v : Nat} (hp : lookupId p l = some v) (hq : lookupId q l = some v) :
    p = q := by
  induction l with
  | nil => simp [lookupId] at hp
  | cons e rest ih =>
      simp only [List.map_cons, List.nodup_cons] at hv
      by_cases h1 : p = e.1 <;> by_cases h2 : q = e.1
      · rw [h1, h2]
      · simp only [lookupId, if_pos h1, Option.some.injEq] at hp
        simp only [lookupId, if_neg h2] at hq
        exact absurd (hp ▸ lookupId_mem_snd hq) hv.1
      · simp only [lookupId, if_neg h1] at hp
        simp only [lookupId, if_pos h2, Option.some.injEq] at hq
        exact absurd (hq ▸ lookupId_mem_snd hp) hv.1
      · simp only [lookupId, if_neg h1] at hp
        simp only [lookupId, if_neg h2] at hq
        exact ih hv.2 hp hq

/-! ## Lemmas about `assignFrom` -/

@[simp]
theorem assignFrom_map_fst (m : Nat) (ps : List Nat) :
    (assignFrom m ps).map Prod.fst = ps := by
  induction ps generalizing m with
  | nil => rfl
  | cons p rest ih => simp [assignFrom, ih]

@[simp]
theorem assignFrom_length (m : Nat) (ps : List Nat) :
    (assignFrom m ps).length = ps.length := by
  induction ps generalizing m with
  | nil => rfl
  | cons p rest ih => simp [assignFrom, ih]

theorem assignFrom_map_snd (m : Nat) (ps : List Nat) :
    (assignFrom m ps).map Prod.snd = List.range' m ps.length := by
  induction ps generalizing m with
  | nil => rfl
  | cons p rest ih => simp [assignFrom, ih, List.range']

theorem lookupId_assignFrom {ps : List Nat} (hnd : ps.Nodup) (m : Nat)
    {j : Nat} (hj : j < ps.length) :
    lookupId (ps.getD j 0) (assignFrom m ps) = some (m + j) := by
  induction ps generalizing m j with
  | nil => simp at hj
  | cons p rest ih =>
      simp only [List.nodup_cons] at hnd
      match j with
      | 0 => simp [assignFrom, lookupId]
      | j + 1 =>
          have hj' : j < rest.length := by simpa using hj
          have hmem : rest.getD j 0 ∈ rest := by
            rw [List.getD_eq_getElem _ _ hj']
            exact List.getElem_mem hj'
          have hne : rest.getD j 0 ≠ p := by
            intro h
            exact hnd.1 (h ▸ hmem)
          simp only [List.getD_cons_succ, assignFrom, lookupId, if_neg hne]
          rw [ih hnd.2 (m + 1) hj']
          congr 1
          omega

/-! ## Lemmas about `bumpFrom`, `setOnceFrom` and `getD` -/

@[simp]
theorem bumpFrom_length (ids : List Nat) (k : Nat) (l : List Nat) :
    (bumpFrom ids k l).length = l.length := by
  induction l generalizing k with
  | nil => rfl
  | cons x xs ih => simp [bumpFrom, ih]

theorem bumpFrom_getD (ids : List Nat) (l : List Nat) (k j : Nat) :
    (bumpFrom ids k l).getD j 0 =
      if (k + j) ∈ ids ∧ j < l.length then l.getD j 0 + 1 else l.getD j 0 := by
  induction l generalizing k j with
  | nil => simp [bumpFrom]
  | cons x xs ih =>
      match j with
      | 0 => by_cases h : k ∈ ids <;> simp [bumpFrom, h]
      | j + 1 =>
          simp only [bumpFrom, List.getD_cons_succ, List.length_cons]
          rw [ih]
          have harith : k + 1 + j = k + (j + 1) := by omega
          rw [harith]
          by_cases h : (k + (j + 1)) ∈ ids ∧ j < xs.length
          · rw [if_pos h, if_pos ⟨h.1, by omega⟩]
          · rw [if_neg h, if_neg (by intro hc; exact h ⟨hc.1, by omega⟩)]

@[simp]
theorem setOnceFrom_length (a : List Nat) (k : Nat) (l : List Particle) :
    (setOnceFrom a k l).length = l.length := by
  induction l generalizing k with
  | nil => rfl
  | cons p ps ih => simp [setOnceFrom, ih]

theorem setOnceFrom_pid (a : List Nat) (l : List Particle) (k j : Nat) :
    ((setOnceFrom a k l).getD j default).pid = (l.getD j default).pid := by
  induction l generalizing k j with
  | nil => simp [setOnceFrom]
  | cons p ps ih =>
      match j with
      | 0 => by_cases h : k ∈ a <;> simp [setOnceFrom, h]
      | j + 1 => simp only [setOnceFrom, List.getD_cons_succ]; exact ih (k + 1) j

theorem setOnceFrom_flag (a : List Nat) (l : List Particle) (k j : Nat) :
    ((setOnceFrom a k l).getD j default).once_written =
      if (k + j) ∈ a ∧ j < l.length then 1 else (l.getD j default).once_written := by
  induction l generalizing k j with
  | nil => simp [setOnceFrom]
  | cons p ps ih =>
      match j with
      | 0 => by_cases h : k ∈ a <;> simp [setOnceFrom, h]
      | j + 1 =>
          simp only [setOnceFrom, List.getD_cons_succ, List.length_cons]
          rw [ih]
          have harith : k + 1 + j = k + (j + 1) := by omega
          rw [harith]
          by_cases h : (k + (j + 1)) ∈ a ∧ j < ps.length
          · rw [if_pos h, if_pos ⟨h.1, by omega⟩]
          · rw [if_neg h, if_neg (by intro hc; exact h ⟨hc.1, by omega⟩)]

@[simp]
theorem getD_replicate_zero (n j : Nat) : (List.replicate n (0 : Nat)).getD j 0 = 0 := by
  induction n generalizing j with
  | zero => simp
  | succ n ih =>
      match j with
      | 0 => rfl
      | j + 1 => simp [List.replicate, ih j]

/-! ## Lemmas about `newIdsOf` -/

theorem newIdsOf_nodup (reg : List (Nat × Nat)) (pids : List Nat) :
    (newIdsOf reg pids).Nodup :=
  (List.perm_insertionSort _ _).nodup_iff.mpr (List.nodup_dedup _)

theorem mem_newIdsOf {reg : List (Nat × Nat)} {pids : List Nat} {p : Nat} :
    p ∈ newIdsOf reg pids ↔ p ∈ pids ∧ lookupId p reg = none := by
  unfold newIdsOf
  rw [(List.perm_insertionSort _ _).mem_iff, List.mem_dedup, List.mem_filter]
  simp [Option.isNone_iff_eq_none]

theorem newIdsOf_sorted (reg : List (Nat × Nat)) (pids : List Nat) :
    (newIdsOf reg pids).Sorted (· ≤ ·) :=
  List.sorted_insertionSort _ _

theorem newIdsOf_pairwise_lt (reg : List (Nat × Nat)) (pids : List Nat) :
    List.Pairwise (· < ·) (newIdsOf reg pids) := by
  have hs : List.Pairwise (· ≤ ·) (newIdsOf reg pids) := newIdsOf_sorted reg pids
  have hn : List.Pairwise (· ≠ ·) (newIdsOf reg pids) := newIdsOf_nodup reg pids
  exact (hs.and hn).imp fun h => lt_of_le_of_ne h.1 h.2

/-! ## Rows of one chunk index -/

theorem zipRows_of_not_mem {pid : Nat} {ps os : List Nat} (h : pid ∉ ps) :
    ((ps.zip os).filter fun r => decide (r.1 = pid)).map Prod.snd = [] := by
  induction ps generalizing os with
  | nil => simp
  | cons p ps ih =>
      match os with
      | [] => simp
      | o :: os =>
          have hp : ¬(p = pid) := fun hc => h (by simp [hc])
          have hm : pid ∉ ps := fun hc => h (List.mem_cons_of_mem _ hc)
          simp only [List.zip_cons_cons]
          rw [List.filter_cons_of_neg (by simp [hp])]
          exact ih hm

theorem zipRows_of_get {pid : Nat} {ps os : List Nat} (hnd : ps.Nodup)
    {j : Nat} (hj : j < ps.length) (hget : ps.getD j 0 = pid)
    (hlen : ps.length ≤ os.length) :
    ((ps.zip os).filter fun r => decide (r.1 = pid)).map Prod.snd =
      [os.getD j 0] := by
  induction ps generalizing os j with
  | nil => simp at hj
  | cons p ps ih =>
      match os with
      | [] => simp at hlen
      | o :: os =>
          simp only [List.nodup_cons] at hnd
          match j with
          | 0 =>
              have hp : p = pid := by simpa using hget
              have hpid : pid ∉ ps := hp ▸ hnd.1
              simp only [List.zip_cons_cons, List.getD_cons_zero]
              rw [List.filter_cons_of_pos (by simp [hp])]
              simp [zipRows_of_not_mem hpid]
          | j + 1 =>
              have hj' : j < ps.length := by simpa using hj
              have hmem : pid ∈ ps := by
                rw [← hget]
                simp only [List.getD_cons_succ]
                rw [List.getD_eq_getElem _ _ hj']
                exact List.getElem_mem hj'
              have hp : ¬(p = pid) := fun hc => hnd.1 (hc ▸ hmem)
              simp only [List.zip_cons_cons, List.getD_cons_succ]
              rw [List.filter_cons_of_neg (by simp [hp])]
              exact ih hnd.2 hj' (by simpa using hget) (by simpa using hlen)

theorem trajOf_append (pid : Nat) (a b : List Chunk) :
    trajOf pid (a ++ b) = trajOf pid a ++ trajOf pid b := by
  induction a with
  | nil => rfl
  | cons c cs ih => simp [trajOf, ih]

/-! ## The writer invariant -/

/-- Invariant of the identity registry: keys are pairwise distinct, the
values are exactly `0, ..., maxids - 1` in insertion order, and `maxids` is
the registry size. -/
structure RegInv (st : WriterState) : Prop where
  keysNodup : (st.pids_written.map Prod.fst).Nodup
  vals : st.pids_written.map Prod.snd = List.range st.maxids
  maxEq : st.maxids = st.pids_written.length

/-- Full invariant of a reachable writer state: the registry invariant, the
counter-table shape, and, for every identity, the trajectory recorded in the
chunks so far is exactly `0, ..., c - 1` where `c` is its current counter. -/
structure Inv (st : WriterState) extends RegInv st : Prop where
  nfilesZero : st.nfiles = 0 → st.maxids = 0
  obsLen : st.obs_written.length = st.maxids
  chunksLen : st.chunks.length = st.nfiles
  traj : ∀ pid, trajOf pid st.chunks = List.range (counterOf st pid)

theorem counterOf_eq_some {st : WriterState} {p i : Nat}
    (hi : lookupId p st.pids_written = some i) :
    counterOf st p = st.obs_written.getD i 0 := by
  unfold counterOf
  rw [hi]

theorem counterOf_eq_none {st : WriterState} {p : Nat}
    (hi : lookupId p st.pids_written = none) : counterOf st p = 0 := by
  unfold counterOf
  rw [hi]

theorem inv_init (wod : Bool) (ptype : List PtypeVar) : Inv (initState wod ptype) := by
  refine ⟨⟨?_, ?_, ?_⟩, ?_, ?_, ?_, ?_⟩ <;>
    simp [initState, lookupId, trajOf, counterOf]

/-! ## Registry facts for one emission -/

theorem regAfter_map_fst (st : WriterState) (pids : List Nat) :
    (regAfter st pids).map Prod.fst =
      st.pids_written.map Prod.fst ++ newIdsOf st.pids_written pids := by
  simp [regAfter]

theorem regAfter_keys_nodup (st : WriterState) (pids : List Nat) (h : RegInv st) :
    ((regAfter st pids).map Prod.fst).Nodup := by
  rw [regAfter_map_fst, List.nodup_append]
  refine ⟨h.keysNodup, newIdsOf_nodup _ _, ?_⟩
  intro p hp hq
  have := (mem_newIdsOf.mp hq).2
  rw [lookupId_eq_none] at this
  exact this hp

theorem regAfter_length (st : WriterState) (pids : List Nat) (h : RegInv st) :
    (regAfter st pids).length = st.maxids + (newIdsOf st.pids_written pids).length := by
  simp [regAfter, ← h.maxEq]

theorem regAfter_map_snd (st : WriterState) (pids : List Nat) (h : RegInv st) :
    (regAfter st pids).map Prod.snd = List.range (regAfter st pids).length := by
  rw [regAfter_length st pids h, List.range_add st.maxids _, ← List.range'_eq_map_range]
  simp [regAfter, h.vals, assignFrom_map_snd]

theorem regAfter_snd_nodup (st : WriterState) (pids : List Nat) (h : RegInv st) :
    ((regAfter st pids).map Prod.snd).Nodup := by
  rw [regAfter_map_snd st pids h]
  exact List.nodup_range _

/-- Every identity of the batch is registered after the batch. -/
theorem lookup_regAfter_mem (st : WriterState) {pids : List Nat} {p : Nat}
    (hp : p ∈ pids) : ∃ v, lookupId p (regAfter st pids) = some v := by
  cases hold : lookupId p st.pids_written with
  | some v => exact ⟨v, lookupId_append_of_some hold⟩
  | none =>
      have hnew : p ∈ newIdsOf st.pids_written pids := mem_newIdsOf.mpr ⟨hp, hold⟩
      obtain ⟨j, hj, hget⟩ := List.mem_iff_getElem.mp hnew
      have hgd : (newIdsOf st.pids_written pids).getD j 0 = p := by
        rw [List.getD_eq_getElem _ _ hj]; exact hget
      refine ⟨st.maxids + j, ?_⟩
      rw [regAfter, lookupId_append_of_none hold, ← hgd]
      exact lookupId_assignFrom (newIdsOf_nodup _ _) st.maxids hj

/-- An identity not in the batch keeps its (possibly absent) registration. -/
theorem lookup_regAfter_of_not_mem (st : WriterState) {pids : List Nat} {p : Nat}
    (hp : p ∉ pids) : lookupId p (regAfter st pids) = lookupId p st.pids_written := by
  cases hold : lookupId p st.pids_written with
  | some v => exact lookupId_append_of_some hold
  | none =>
      rw [regAfter, lookupId_append_of_none hold, lookupId_eq_none,
        assignFrom_map_fst]
      intro hmem
      exact hp (mem_newIdsOf.mp hmem).1

/-- Registered values are bounded by the registry size. -/
theorem lookup_lt_of_vals {st : WriterState} (h : RegInv st) {p v : Nat}
    (hp : lookupId p st.pids_written = some v) : v < st.maxids := by
  have := lookupId_mem_snd hp
  rw [h.vals, List.mem_range] at this
  exact this

/-- A lookup that succeeds in the updated registry but not in the old one
lands in the newly assigned block, at or above the old `maxids`. -/
theorem lookup_regAfter_new (st : WriterState) {pids : List Nat} {p : Nat}
    (hold : lookupId p st.pids_written = none) {i : Nat}
    (hi : lookupId p (regAfter st pids) = some i) : st.maxids ≤ i := by
  rw [regAfter, lookupId_append_of_none hold] at hi
  have hmem := lookupId_mem_snd hi
  rw [assignFrom_map_snd, List.range'_eq_map_range] at hmem
  obtain ⟨x, _, hxe⟩ := List.mem_map.mp hmem
  omega

/-! ## Shape of the counter table during one emission -/

theorem getD_zero_of_forall {l : List Nat} (h : ∀ x ∈ l, x = 0) (i : Nat) :
    l.getD i 0 = 0 := by
  by_cases hi : i < l.length
  · rw [List.getD_eq_getElem _ _ hi]
    exact h _ (List.getElem_mem hi)
  · exact List.getD_eq_default _ _ (by omega)

theorem newIdsOf_nil_length {pids : List Nat} (hnd : pids.Nodup) :
    (newIdsOf [] pids).length = pids.length := by
  unfold newIdsOf
  rw [(List.perm_insertionSort _ _).length_eq]
  have hf : (pids.filter fun p => (lookupId p ([] : List (Nat × Nat))).isNone) = pids := by
    apply List.filter_eq_self.mpr
    intro a _
    simp [lookupId]
  rw [hf, List.dedup_eq_self.mpr hnd]

theorem obsGrown_length (st : WriterState) (pids : List Nat) (h : Inv st)
    (hnd : pids.Nodup) :
    (obsGrown st pids).length = (regAfter st pids).length := by
  by_cases hn : st.nfiles = 0
  · have hm : st.maxids = 0 := h.nfilesZero hn
    have hr : st.pids_written = [] :=
      List.length_eq_zero.mp (by rw [← h.maxEq]; exact hm)
    have hlen : (regAfter st pids).length = pids.length := by
      rw [regAfter_length st pids h.toRegInv, hm, hr, newIdsOf_nil_length hnd]
      omega
    simp only [obsGrown, if_pos hn]
    rw [hlen, if_neg (by simp)]
    simp
  · simp only [obsGrown, if_neg hn]
    have hle : st.obs_written.length ≤ (regAfter st pids).length := by
      rw [h.obsLen, regAfter_length st pids h.toRegInv]
      omega
    by_cases hg : (regAfter st pids).length > st.obs_written.length
    · rw [if_pos hg]
      simp
      omega
    · rw [if_neg hg]
      omega

theorem obsGrown_getD_lt (st : WriterState) (pids : List Nat) (h : Inv st)
    (hn : st.nfiles ≠ 0) {i : Nat} (hi : i < st.maxids) :
    (obsGrown st pids).getD i 0 = st.obs_written.getD i 0 := by
  simp only [obsGrown, if_neg hn]
  by_cases hg : (regAfter st pids).length > st.obs_written.length
  · rw [if_pos hg, List.getD_append _ _ _ _ (by rw [h.obsLen]; omega)]
  · rw [if_neg hg]

theorem obsGrown_getD_ge (st : WriterState) (pids : List Nat) (h : Inv st)
    {i : Nat} (hi : st.maxids ≤ i) :
    (obsGrown st pids).getD i 0 = 0 := by
  by_cases hn : st.nfiles = 0
  · apply getD_zero_of_forall
    intro x hx
    simp only [obsGrown, if_pos hn] at hx
    by_cases hg : (regAfter st pids).length > (List.replicate pids.length 0).length
    · rw [if_pos hg] at hx
      rcases List.mem_append.mp hx with hx | hx <;>
        exact (List.eq_of_mem_replicate hx)
    · rw [if_neg hg] at hx
      exact List.eq_of_mem_replicate hx
  · simp only [obsGrown, if_neg hn]
    by_cases hg : (regAfter st pids).length > st.obs_written.length
    · rw [if_pos hg,
        List.getD_append_right _ _ _ _ (by rw [h.obsLen]; omega),
        getD_replicate_zero]
    · rw [if_neg hg, List.getD_eq_default _ _ (by rw [h.obsLen]; omega)]

/-! ## `idsAfter` and `obsOf` access -/

theorem getD_map_zero {f : Nat → Nat} {l : List Nat} {j : Nat} (hj : j < l.length) :
    (l.map f).getD j 0 = f (l.getD j 0) := by
  rw [List.getD_eq_getElem _ _ (by simpa using hj), List.getElem_map,
    List.getD_eq_getElem _ _ hj]

@[simp]
theorem idsAfter_length (st : WriterState) (pids : List Nat) :
    (idsAfter st pids).length = pids.length := by
  simp [idsAfter]

@[simp]
theorem obsOf_length (st : WriterState) (pids : List Nat) :
    (obsOf st pids).length = pids.length := by
  simp [obsOf]

theorem idsAfter_getD (st : WriterState) {pids : List Nat} {j : Nat}
    (hj : j < pids.length) :
    (idsAfter st pids).getD j 0 =
      (lookupId (pids.getD j 0) (regAfter st pids)).getD 0 := by
  unfold idsAfter
  exact getD_map_zero hj

theorem obsOf_getD (st : WriterState) {pids : List Nat} {j : Nat}
    (hj : j < pids.length) :
    (obsOf st pids).getD j 0 =
      (obsGrown st pids).getD ((idsAfter st pids).getD j 0) 0 := by
  unfold obsOf
  exact getD_map_zero (by simpa using hj)

/-! ## Facts about one identity during one emission -/

/-- For an identity of the batch: its local index in the updated registry,
that index's membership in `ids`, its bound, the counter read for it, and
the single row the new chunk holds for it. -/
theorem batch_pid_facts (st : WriterState) {pids : List Nat}
    (h : Inv st) (hnd : pids.Nodup) {p : Nat} (hp : p ∈ pids) :
    ∃ i, lookupId p (regAfter st pids) = some i ∧
      i ∈ idsAfter st pids ∧
      i < (regAfter st pids).length ∧
      (obsGrown st pids).getD i 0 = counterOf st p ∧
      (((pids.zip (obsOf st pids)).filter fun r => decide (r.1 = p)).map Prod.snd) =
        [counterOf st p] := by
  obtain ⟨i, hi⟩ := lookup_regAfter_mem st hp
  obtain ⟨j, hj, hget⟩ := List.mem_iff_getElem.mp hp
  have hgd : pids.getD j 0 = p := by
    rw [List.getD_eq_getElem _ _ hj]
    exact hget
  have hidj : (idsAfter st pids).getD j 0 = i := by
    rw [idsAfter_getD st hj, hgd, hi]
    rfl
  have hmem : i ∈ idsAfter st pids := by
    rw [← hidj, List.getD_eq_getElem _ _ (by simpa using hj)]
    exact List.getElem_mem _
  have hlt : i < (regAfter st pids).length := by
    have := lookupId_mem_snd hi
    rw [regAfter_map_snd st pids h.toRegInv, List.mem_range] at this
    exact this
  have hcnt : (obsGrown st pids).getD i 0 = counterOf st p := by
    cases hold : lookupId p st.pids_written with
    | some v =>
        have h2 : lookupId p (regAfter st pids) = some v := by
          rw [regAfter]
          exact lookupId_append_of_some hold
        rw [hi] at h2
        have hv : i = v := Option.some.inj h2
        have hvlt : v < st.maxids := lookup_lt_of_vals h.toRegInv hold
        have hn0 : st.nfiles ≠ 0 := by
          intro hz
          have := h.nfilesZero hz
          omega
        rw [hv, obsGrown_getD_lt st pids h hn0 hvlt, counterOf_eq_some hold]
    | none =>
        have hge : st.maxids ≤ i := lookup_regAfter_new st hold hi
        rw [obsGrown_getD_ge st pids h hge, counterOf_eq_none hold]
  have hrows : (((pids.zip (obsOf st pids)).filter fun r => decide (r.1 = p)).map
      Prod.snd) = [counterOf st p] := by
    rw [zipRows_of_get hnd hj hgd (by simp)]
    congr 1
    rw [obsOf_getD st hj, hidj, hcnt]
  exact ⟨i, hi, hmem, hlt, hcnt, hrows⟩

/-- The local index of an identity outside the batch never occurs in `ids`. -/
theorem nonbatch_not_mem_ids (st : WriterState) {pids : List Nat}
    (h : Inv st) {p v : Nat} (hp : p ∉ pids)
    (hold : lookupId p st.pids_written = some v) : v ∉ idsAfter st pids := by
  intro hmem
  obtain ⟨q, hq, hqe⟩ := List.mem_map.mp hmem
  obtain ⟨w, hw⟩ := lookup_regAfter_mem st hq
  rw [hw] at hqe
  simp only [Option.getD_some] at hqe
  have hpv : lookupId p (regAfter st pids) = some v := by
    rw [regAfter]
    exact lookupId_append_of_some hold
  have hpq : p = q :=
    lookupId_inj (regAfter_snd_nodup st pids h.toRegInv) hpv (hqe ▸ hw)
  exact hp (hpq ▸ hq)

/-! ## The master lemma for one emission -/

theorem emitChunk_main (st : WriterState) (pset : PSet) (idx : List Nat)
    (h : Inv st) (hnd : (pidsOf pset idx).Nodup) :
    Inv (emitChunk st pset idx).1 ∧
    (emitChunk st pset idx).2.2.index.map Prod.fst = pidsOf pset idx ∧
    (∀ p, p ∈ pidsOf pset idx →
        counterOf (emitChunk st pset idx).1 p = counterOf st p + 1 ∧
        trajOf p (emitChunk st pset idx).1.chunks =
          trajOf p st.chunks ++ [counterOf st p]) ∧
    (∀ p, p ∉ pidsOf pset idx →
        counterOf (emitChunk st pset idx).1 p = counterOf st p ∧
        trajOf p (emitChunk st pset idx).1.chunks = trajOf p st.chunks) := by
  set pids := pidsOf pset idx with hpids
  have hreglen : (obsGrown st pids).length = (regAfter st pids).length :=
    obsGrown_length st pids h hnd
  have hchunks : (emitChunk st pset idx).1.chunks =
      st.chunks ++ [(emitChunk st pset idx).2.2] := rfl
  have hindex : (emitChunk st pset idx).2.2.index = pids.zip (obsOf st pids) := rfl
  have hregf : (emitChunk st pset idx).1.pids_written = regAfter st pids := rfl
  have hobsf : (emitChunk st pset idx).1.obs_written =
      bumpFrom (idsAfter st pids) 0 (obsGrown st pids) := rfl
  have hmaxf : (emitChunk st pset idx).1.maxids = (regAfter st pids).length := rfl
  have hnf : (emitChunk st pset idx).1.nfiles = st.nfiles + 1 := rfl
  have htraj : ∀ p, trajOf p (emitChunk st pset idx).1.chunks =
      trajOf p st.chunks ++
        (((pids.zip (obsOf st pids)).filter fun r => decide (r.1 = p)).map
          Prod.snd) := by
    intro p
    rw [hchunks, trajOf_append]
    congr 1
    simp [trajOf, hindex]
  have hcnt_new : ∀ p ∈ pids,
      counterOf (emitChunk st pset idx).1 p = counterOf st p + 1 := by
    intro p hp
    obtain ⟨i, hi, hmem, hlt, hcnt, _⟩ := batch_pid_facts st h hnd hp
    have hi' : lookupId p (emitChunk st pset idx).1.pids_written = some i := by
      rw [hregf]
      exact hi
    rw [counterOf_eq_some hi', hobsf, bumpFrom_getD,
      if_pos ⟨by simpa using hmem, by rw [hreglen]; exact hlt⟩, hcnt]
  have htraj_new : ∀ p ∈ pids,
      trajOf p (emitChunk st pset idx).1.chunks =
        trajOf p st.chunks ++ [counterOf st p] := by
    intro p hp
    obtain ⟨i, hi, hmem, hlt, hcnt, hrows⟩ := batch_pid_facts st h hnd hp
    rw [htraj p, hrows]
  have hcnt_old : ∀ p, p ∉ pids →
      counterOf (emitChunk st pset idx).1 p = counterOf st p := by
    intro p hp
    have hl := lookup_regAfter_of_not_mem st hp
    cases hold : lookupId p st.pids_written with
    | none =>
        have hn' : lookupId p (emitChunk st pset idx).1.pids_written = none := by
          rw [hregf, hl, hold]
        rw [counterOf_eq_none hn', counterOf_eq_none hold]
    | some v =>
        have hnotmem : v ∉ idsAfter st pids := nonbatch_not_mem_ids st h hp hold
        have hvlt : v < st.maxids := lookup_lt_of_vals h.toRegInv hold
        have hn0 : st.nfiles ≠ 0 := by
          intro hz
          have := h.nfilesZero hz
          omega
        have hsome : lookupId p (emitChunk st pset idx).1.pids_written = some v := by
          rw [hregf, hl]
          exact hold
        rw [counterOf_eq_some hsome, counterOf_eq_some hold, hobsf, bumpFrom_getD,
          if_neg (by intro hc; exact hnotmem (by simpa using hc.1)),
          obsGrown_getD_lt st pids h hn0 hvlt]
  have htraj_old : ∀ p, p ∉ pids →
      trajOf p (emitChunk st pset idx).1.chunks = trajOf p st.chunks := by
    intro p hp
    rw [htraj p, zipRows_of_not_mem hp, List.append_nil]
  refine ⟨⟨⟨?_, ?_, ?_⟩, ?_, ?_, ?_, ?_⟩, ?_, fun p hp => ⟨hcnt_new p hp, htraj_new p hp⟩,
    fun p hp => ⟨hcnt_old p hp, htraj_old p hp⟩⟩
  · rw [hregf]
    exact regAfter_keys_nodup st pids h.toRegInv
  · rw [hregf, hmaxf]
    exact regAfter_map_snd st pids h.toRegInv
  · rw [hregf, hmaxf]
  · rw [hnf]
    omega
  · rw [hobsf, hmaxf, bumpFrom_length, hreglen]
  · rw [hchunks, hnf]
    simp [h.chunksLen]
  · intro p
    by_cases hp : p ∈ pids
    · rw [htraj_new p hp, hcnt_new p hp, h.traj p, ← List.range_succ]
    · rw [htraj_old p hp, hcnt_old p hp, h.traj p]
  · rw [hindex]
    exact List.map_fst_zip _ _ (by simp)

/-! ## Evaluation lemmas for `write` -/

theorem write_eq_skip_gate (st : WriterState) (pset : PSet) (time : Int)
    (d : DeletedArg)
    (hg : ¬(st.lasttime_written ≠ some time ∧
            (st.write_ondelete = false ∨ d ≠ DeletedArg.noDelete))) :
    write st pset time d = ⟨st, pset, none, false⟩ := by
  unfold write
  rw [if_neg hg]

theorem write_eq_warn (st : WriterState) (pset : PSet) (time : Int)
    (d : DeletedArg)
    (hg : st.lasttime_written ≠ some time ∧
          (st.write_ondelete = false ∨ d ≠ DeletedArg.noDelete))
    (hpop : pset.particles.length = 0) :
    write st pset time d = ⟨st, pset, none, true⟩ := by
  unfold write
  rw [if_pos hg, if_pos hpop]

theorem write_eq_empty_sel (st : WriterState) (pset : PSet) (time : Int)
    (d : DeletedArg)
    (hg : st.lasttime_written ≠ some time ∧
          (st.write_ondelete = false ∨ d ≠ DeletedArg.noDelete))
    (hpop : ¬pset.particles.length = 0)
    (hlen : ¬0 < (selIdx pset time d).length) :
    write st pset time d = ⟨st1Of st time d, pset, none, false⟩ := by
  unfold write
  rw [if_pos hg, if_neg hpop, if_neg hlen]

theorem write_eq_emit (st : WriterState) (pset : PSet) (time : Int)
    (d : DeletedArg)
    (hg : st.lasttime_written ≠ some time ∧
          (st.write_ondelete = false ∨ d ≠ DeletedArg.noDelete))
    (hpop : ¬pset.particles.length = 0)
    (hlen : 0 < (selIdx pset time d).length) :
    write st pset time d =
      ⟨(emitChunk (st1Of st time d) pset (selIdx pset time d)).1,
       (emitChunk (st1Of st time d) pset (selIdx pset time d)).2.1,
       some ((emitChunk (st1Of st time d) pset (selIdx pset time d)).2.2),
       false⟩ := by
  unfold write
  rw [if_pos hg, if_neg hpop, if_pos hlen]

theorem st1Of_chunks (st : WriterState) (time : Int) (d : DeletedArg) :
    (st1Of st time d).chunks = st.chunks := by
  unfold st1Of
  split <;> rfl

theorem st1Of_counterOf (st : WriterState) (time : Int) (d : DeletedArg)
    (p : Nat) : counterOf (st1Of st time d) p = counterOf st p := by
  unfold st1Of
  split <;> rfl

theorem st1Of_pids_written (st : WriterState) (time : Int) (d : DeletedArg) :
    (st1Of st time d).pids_written = st.pids_written := by
  unfold st1Of
  split <;> rfl

theorem st1Of_maxids (st : WriterState) (time : Int) (d : DeletedArg) :
    (st1Of st time d).maxids = st.maxids := by
  unfold st1Of
  split <;> rfl

theorem inv_st1Of (st : WriterState) (time : Int) (d : DeletedArg)
    (h : Inv st) : Inv (st1Of st time d) := by
  unfold st1Of
  split
  · exact ⟨⟨h.keysNodup, h.vals, h.maxEq⟩, h.nfilesZero, h.obsLen, h.chunksLen,
      h.traj⟩
  · exact h

/-! ## The step lemma for `write` -/

theorem write_step (st : WriterState) (pset : PSet) (time : Int)
    (d : DeletedArg) (h : Inv st) (hv : validCall pset time d = true) :
    Inv (write st pset time d).st ∧
    (match (write st pset time d).emitted with
     | some c =>
         c.index.map Prod.fst = pidsOf pset (selIdx pset time d) ∧
         (∀ p, p ∈ c.index.map Prod.fst →
             counterOf (write st pset time d).st p = counterOf st p + 1 ∧
             trajOf p (write st pset time d).st.chunks =
               trajOf p st.chunks ++ [counterOf st p]) ∧
         (∀ p, p ∉ c.index.map Prod.fst →
             counterOf (write st pset time d).st p = counterOf st p ∧
             trajOf p (write st pset time d).st.chunks = trajOf p st.chunks)
     | none =>
         (write st pset time d).st.chunks = st.chunks ∧
         ∀ p, counterOf (write st pset time d).st p = counterOf st p) := by
  have hnd : (pidsOf pset (selIdx pset time d)).Nodup := of_decide_eq_true hv
  by_cases hg : st.lasttime_written ≠ some time ∧
      (st.write_ondelete = false ∨ d ≠ DeletedArg.noDelete)
  · by_cases hpop : pset.particles.length = 0
    · rw [write_eq_warn st pset time d hg hpop]
      exact ⟨h, rfl, fun p => rfl⟩
    · by_cases hlen : 0 < (selIdx pset time d).length
      · rw [write_eq_emit st pset time d hg hpop hlen]
        have h1 : Inv (st1Of st time d) := inv_st1Of st time d h
        obtain ⟨hI, hfst, hnew, hold⟩ :=
          emitChunk_main (st1Of st time d) pset (selIdx pset time d) h1 hnd
        refine ⟨hI, hfst, ?_, ?_⟩
        · intro p hp
          rw [hfst] at hp
          obtain ⟨hc, ht⟩ := hnew p hp
          rw [st1Of_counterOf] at hc
          rw [st1Of_chunks, st1Of_counterOf] at ht
          exact ⟨hc, ht⟩
        · intro p hp
          rw [hfst] at hp
          obtain ⟨hc, ht⟩ := hold p hp
          rw [st1Of_counterOf] at hc
          rw [st1Of_chunks] at ht
          exact ⟨hc, ht⟩
      · rw [write_eq_empty_sel st pset time d hg hpop hlen]
        exact ⟨inv_st1Of st time d h, st1Of_chunks st time d,
          fun p => st1Of_counterOf st time d p⟩
  · rw [write_eq_skip_gate st pset time d hg]
    exact ⟨h, rfl, fun p => rfl⟩

theorem runSim_inv (steps : List SimStep) :
    ∀ st pset, Inv st → validRun st pset steps = true →
      Inv (runSim st pset steps).1 := by
  induction steps with
  | nil => intro st pset h _; exact h
  | cons s rest ih =>
      intro st pset h hv
      simp only [validRun, Bool.and_eq_true] at hv
      exact ih _ _ (write_step st (s.mutate pset) s.time s.d h hv.1).1 hv.2

/-! ## Claim theorems -/

/-- C1: for every valid sequence of writes, the observation-index values
emitted for any single particle identity, taken across all chunks in
emission order, are exactly `0, 1, ..., k-1` with no gaps and no repeats;
moreover each accepted write increments the counter by exactly 1 for each
selected identity and leaves all other identities' counters unchanged. -/
theorem c1_observation_indices (wod : Bool) (ptype : List PtypeVar)
    (pset0 : PSet) (steps : List SimStep)
    (hv : validRun (initState wod ptype) pset0 steps = true) :
    (∀ pid,
        trajOf pid ((runSim (initState wod ptype) pset0 steps).1).chunks =
          List.range
            (trajOf pid ((runSim (initState wod ptype) pset0 steps).1).chunks).length) ∧
    (∀ st pset time d, Inv st → validCall pset time d = true →
        match (write st pset time d).emitted with
        | some c =>
            (∀ p, p ∈ c.index.map Prod.fst →
                counterOf (write st pset time d).st p = counterOf st p + 1) ∧
            (∀ p, p ∉ c.index.map Prod.fst →
                counterOf (write st pset time d).st p = counterOf st p)
        | none => ∀ p, counterOf (write st pset time d).st p = counterOf st p) := by
  constructor
  · intro pid
    have hI := runSim_inv steps (initState wod ptype) pset0 (inv_init wod ptype) hv
    rw [hI.traj pid, List.length_range]
  · intro st pset time d hst hvc
    have hs := (write_step st pset time d hst hvc).2
    rcases hme : (write st pset time d).emitted with _ | c
    · simp only [hme] at hs ⊢
      exact hs.2
    · simp only [hme] at hs ⊢
      exact ⟨fun p hp => (hs.2.1 p hp).1, fun p hp => (hs.2.2 p hp).1⟩

/-- Witness for C1: the spec's end-to-end scenario, with identity 1 selected
in both chunks receiving observation indices `[0, 1]`. -/
theorem c1_observation_indices_witness :
    validRun (initState false []) demoPSet2 demoSteps = true ∧
    trajOf 1 ((runSim (initState false []) demoPSet2 demoSteps).1).chunks =
      List.range
        (trajOf 1 ((runSim (initState false []) demoPSet2 demoSteps).1).chunks).length ∧
    trajOf 1 ((runSim (initState false []) demoPSet2 demoSteps).1).chunks = [0, 1] :=
  ⟨by decide,
   (c1_observation_indices false [] demoPSet2 demoSteps (by decide)).1 1,
   by decide⟩

/-- C5: in periodic mode with no deletion subset, two `write` calls with the
same time emit at most one chunk; the first call records the time as the last
periodic write time and the second call is a no-op leaving all writer state
unchanged. -/
theorem c5_same_time_idempotent (st : WriterState) (pset1 pset2 : PSet)
    (t : Int) (hw : st.write_ondelete = false)
    (hne : ¬pset1.particles.length = 0) :
    (write st pset1 t DeletedArg.noDelete).st.lasttime_written = some t ∧
    write (write st pset1 t DeletedArg.noDelete).st pset2 t DeletedArg.noDelete =
      ⟨(write st pset1 t DeletedArg.noDelete).st, pset2, none, false⟩ ∧
    (write st pset1 t DeletedArg.noDelete).st.chunks.length =
      st.chunks.length +
        (if (write st pset1 t DeletedArg.noDelete).emitted.isSome then 1 else 0) := by
  by_cases hlt : st.lasttime_written = some t
  · have hg : ¬(st.lasttime_written ≠ some t ∧
        (st.write_ondelete = false ∨ DeletedArg.noDelete ≠ DeletedArg.noDelete)) :=
      fun hc => hc.1 hlt
    rw [write_eq_skip_gate st pset1 t DeletedArg.noDelete hg]
    rw [write_eq_skip_gate st pset2 t DeletedArg.noDelete hg]
    exact ⟨hlt, rfl, by simp⟩
  · have hg : st.lasttime_written ≠ some t ∧
        (st.write_ondelete = false ∨ DeletedArg.noDelete ≠ DeletedArg.noDelete) :=
      ⟨hlt, Or.inl hw⟩
    by_cases hlen : 0 < (selIdx pset1 t DeletedArg.noDelete).length
    · rw [write_eq_emit st pset1 t DeletedArg.noDelete hg hne hlen]
      have hltw : (emitChunk (st1Of st t DeletedArg.noDelete) pset1
          (selIdx pset1 t DeletedArg.noDelete)).1.lasttime_written = some t := rfl
      rw [write_eq_skip_gate _ pset2 t DeletedArg.noDelete (fun hc => hc.1 hltw)]
      refine ⟨hltw, rfl, ?_⟩
      have hch : (emitChunk (st1Of st t DeletedArg.noDelete) pset1
          (selIdx pset1 t DeletedArg.noDelete)).1.chunks =
          (st1Of st t DeletedArg.noDelete).chunks ++
            [(emitChunk (st1Of st t DeletedArg.noDelete) pset1
              (selIdx pset1 t DeletedArg.noDelete)).2.2] := rfl
      rw [hch, st1Of_chunks]
      simp
    · rw [write_eq_empty_sel st pset1 t DeletedArg.noDelete hg hne hlen]
      have hltw : (st1Of st t DeletedArg.noDelete).lasttime_written = some t := rfl
      rw [write_eq_skip_gate _ pset2 t DeletedArg.noDelete (fun hc => hc.1 hltw)]
      refine ⟨hltw, rfl, ?_⟩
      rw [st1Of_chunks]
      simp

/-- Witness for C5 at a concrete run: two periodic writes at `t = 0`. -/
theorem c5_same_time_idempotent_witness :
    (write (initState false []) demoPSet2 0 DeletedArg.noDelete).st.lasttime_written =
      some 0 ∧
    write (write (initState false []) demoPSet2 0 DeletedArg.noDelete).st demoPSet2 0
        DeletedArg.noDelete =
      ⟨(write (initState false []) demoPSet2 0 DeletedArg.noDelete).st, demoPSet2,
        none, false⟩ ∧
    (write (initState false []) demoPSet2 0 DeletedArg.noDelete).st.chunks.length =
      (initState false []).chunks.length +
        (if (write (initState false []) demoPSet2 0 DeletedArg.noDelete).emitted.isSome
          then 1 else 0) :=
  c5_same_time_idempotent (initState false []) demoPSet2 demoPSet2 0 rfl (by decide)

/-- C7: if the mode gate would allow a write but the particle population is
empty, the write is skipped with the non-fatal warning and the writer state
and the collection are returned unchanged. -/
theorem c7_empty_population_skip (st : WriterState) (pset : PSet) (t : Int)
    (d : DeletedArg) (hg1 : st.lasttime_written ≠ some t)
    (hg2 : st.write_ondelete = false ∨ d ≠ DeletedArg.noDelete)
    (hemp : pset.particles.length = 0) :
    write st pset t d = ⟨st, pset, none, true⟩ :=
  write_eq_warn st pset t d ⟨hg1, hg2⟩ hemp

/-- Witness for C7: an empty collection at `t = 3` warns and changes
nothing. -/
theorem c7_empty_population_skip_witness :
    write (initState false []) demoEmpty 3 DeletedArg.noDelete =
      ⟨initState false [], demoEmpty, none, true⟩ :=
  c7_empty_population_skip (initState false []) demoEmpty 3 DeletedArg.noDelete
    (by decide) (Or.inl rfl) rfl

/-- C3 counterexample: after a periodic write at `t = 5`, a deletion-subset
write at the same `t = 5` with the non-empty resolved subset `[2]` produces
no chunk — the whole call is skipped by the outer time gate, contradicting
the claim that a non-empty deletion subset forces a chunk at an equal
time. -/
theorem c3_counterexample :
    (write (initState false []) demoPSet3 5 DeletedArg.noDelete).emitted.isSome =
      true ∧
    (write (initState false []) demoPSet3 5 DeletedArg.noDelete).st.lasttime_written =
      some 5 ∧
    resolveDeletedOnly (write (initState false []) demoPSet3 5
        DeletedArg.noDelete).pset (DeletedArg.lst [2]) = [2] ∧
    write (write (initState false []) demoPSet3 5 DeletedArg.noDelete).st
        (write (initState false []) demoPSet3 5 DeletedArg.noDelete).pset 5
        (DeletedArg.lst [2]) =
      ⟨(write (initState false []) demoPSet3 5 DeletedArg.noDelete).st,
       (write (initState false []) demoPSet3 5 DeletedArg.noDelete).pset, none,
       false⟩ :=
  ⟨by decide, by decide, by decide,
   write_eq_skip_gate _ _ _ _ (fun hc => hc.1 (by decide))⟩

/-- C3 amended: a non-empty deletion subset produces a chunk only when the
given time differs from the recorded last periodic write time; whenever the
given time equals `lasttime_written`, the call — deletion subset or not — is
skipped without touching any state. -/
theorem c3_amended_deletion_write (st : WriterState) (pset : PSet) (t : Int)
    (d : DeletedArg) (hd : d ≠ DeletedArg.noDelete)
    (hne : ¬pset.particles.length = 0)
    (ht : st.lasttime_written ≠ some t)
    (hres : resolveDeletedOnly pset d ≠ []) :
    ((write st pset t d).emitted.isSome = true ∧
     (write st pset t d).st.chunks.length = st.chunks.length + 1) ∧
    (∀ (st' : WriterState) (pset' : PSet) (t' : Int) (d' : DeletedArg),
        st'.lasttime_written = some t' →
        write st' pset' t' d' = ⟨st', pset', none, false⟩) := by
  constructor
  · have hg : st.lasttime_written ≠ some t ∧
        (st.write_ondelete = false ∨ d ≠ DeletedArg.noDelete) := ⟨ht, Or.inr hd⟩
    have hsel : selIdx pset t d = resolveDeletedOnly pset d := by
      unfold selIdx
      rw [if_neg hd]
    have hlen : 0 < (selIdx pset t d).length := by
      rw [hsel]
      exact List.length_pos.mpr hres
    rw [write_eq_emit st pset t d hg hne hlen]
    refine ⟨rfl, ?_⟩
    have hch : (emitChunk (st1Of st t d) pset (selIdx pset t d)).1.chunks =
        (st1Of st t d).chunks ++
          [(emitChunk (st1Of st t d) pset (selIdx pset t d)).2.2] := rfl
    rw [hch, st1Of_chunks]
    simp
  · intro st' pset' t' d' hlt
    exact write_eq_skip_gate _ _ _ _ (fun hc => hc.1 hlt)

/-- Witness for the amended C3: a deletion-subset write at a fresh time over
subset `[2]` emits exactly one chunk. -/
theorem c3_amended_deletion_write_witness :
    ((write (initState false []) demoPSet3 7 (DeletedArg.lst [2])).emitted.isSome =
        true ∧
      (write (initState false []) demoPSet3 7
          (DeletedArg.lst [2])).st.chunks.length =
        (initState false []).chunks.length + 1) ∧
    (∀ (st' : WriterState) (pset' : PSet) (t' : Int) (d' : DeletedArg),
        st'.lasttime_written = some t' →
        write st' pset' t' d' = ⟨st', pset', none, false⟩) :=
  c3_amended_deletion_write (initState false []) demoPSet3 7 (DeletedArg.lst [2])
    (by decide) (by decide) (by decide) (by decide)

/-- C8: resolution of the deletion-subset argument: the flag `True` resolves
to the indices whose state equals the deleted code; an indicator array (all
values in `{0, 1}`) resolves to the indices where it is 1; an explicit index
list passes through unchanged. -/
theorem c8_deleted_arg_resolution (pset : PSet) (xs : List Nat) (i : Nat) :
    (i ∈ resolveDeletedOnly pset DeletedArg.allDeleted ↔
      i < pset.particles.length ∧ (getP pset i).state = opDelete) ∧
    ((∀ x ∈ xs, x ≤ 1) →
      (i ∈ resolveDeletedOnly pset (DeletedArg.arr xs) ↔
        i < xs.length ∧ xs.getD i 0 = 1)) ∧
    resolveDeletedOnly pset (DeletedArg.lst xs) = xs := by
  refine ⟨?_, ?_, rfl⟩
  · simp [resolveDeletedOnly, List.mem_filter, List.mem_range]
  · intro hb
    have hall : (xs.all fun x => decide (x ≤ 1)) = true := by
      rw [List.all_eq_true]
      intro x hx
      exact decide_eq_true (hb x hx)
    simp only [resolveDeletedOnly, if_pos hall, whereTrue, List.mem_filter,
      List.mem_range, decide_eq_true_eq]
    constructor
    · rintro ⟨h1, h2⟩
      refine ⟨h1, ?_⟩
      have hmem : xs.getD i 0 ∈ xs := by
        rw [List.getD_eq_getElem _ _ h1]
        exact List.getElem_mem h1
      have := hb _ hmem
      omega
    · rintro ⟨h1, h2⟩
      exact ⟨h1, by omega⟩

/-- Witness for C8 on a concrete indicator array and list. -/
theorem c8_deleted_arg_resolution_witness :
    (∀ x ∈ [0, 1, 0], x ≤ 1) ∧
    ((1 : Nat) ∈ resolveDeletedOnly demoPSet3 (DeletedArg.arr [0, 1, 0]) ↔
      1 < [0, 1, 0].length ∧ [0, 1, 0].getD 1 0 = 1) ∧
    resolveDeletedOnly demoPSet3 (DeletedArg.lst [2, 0]) = [2, 0] :=
  ⟨by decide, (c8_deleted_arg_resolution demoPSet3 [0, 1, 0] 1).2.1 (by decide),
   (c8_deleted_arg_resolution demoPSet3 [2, 0] 1).2.2⟩

theorem find?_append_of_none {α : Type} {p : α → Bool} {l1 l2 : List α}
    (h : l1.find? p = none) : (l1 ++ l2).find? p = l2.find? p := by
  induction l1 with
  | nil => simp
  | cons x xs ih =>
      cases hp : p x
      · simp only [List.cons_append, List.find?, hp] at h ⊢
        exact ih h
      · simp [List.find?, hp] at h

/-- C9: with a valid parquet extension in single-process mode, construction
replaces whatever existed at the output path by a fresh empty directory: all
chunk files persisted by an earlier writer at the same path are destroyed. -/
theorem c9_fresh_output_directory (name ext : String) (fs : DirStore)
    (hext : ext ∈ validExtensions) :
    ∃ fs', initOutputTarget name ext fs = .ok (name, fs') ∧
      dirContents fs' name = some [] ∧
      ∀ files, (name, files) ∈ fs'.entries → files = [] := by
  refine ⟨mkdirP (if dirExists fs name then rmtree fs name else fs) name, ?_, ?_, ?_⟩
  · unfold initOutputTarget
    rw [if_pos hext]
  · have hnone : ((if dirExists fs name then rmtree fs name else fs).entries.find?
        fun e => decide (e.1 = name)) = none := by
      rw [List.find?_eq_none]
      intro e he
      cases hex : dirExists fs name with
      | true =>
          rw [if_pos hex] at he
          have := (List.mem_filter.mp he).2
          simpa using this
      | false =>
          rw [if_neg (by simp [hex])] at he
          intro hdec
          have hany : dirExists fs name = true := by
            unfold dirExists
            rw [List.any_eq_true]
            exact ⟨e, he, hdec⟩
          rw [hany] at hex
          exact Bool.noConfusion hex
    unfold dirContents mkdirP
    rw [find?_append_of_none hnone]
    simp [List.find?]
  · intro files hmem
    unfold mkdirP at hmem
    rcases List.mem_append.mp hmem with hm | hm
    · cases hex : dirExists fs name with
      | true =>
          rw [if_pos hex] at hm
          have := (List.mem_filter.mp hm).2
          simp at this
      | false =>
          rw [if_neg (by simp [hex])] at hm
          exfalso
          have hany : dirExists fs name = true := by
            unfold dirExists
            rw [List.any_eq_true]
            exact ⟨(name, files), hm, by simp⟩
          rw [hany] at hex
          exact Bool.noConfusion hex
    · simp at hm
      exact hm

/-- Witness for C9: constructing over an existing `out.parquet` folder
destroys its stale chunk. -/
theorem c9_fresh_output_directory_witness :
    (".parquet" ∈ validExtensions) ∧
    ∃ fs', initOutputTarget "out.parquet" ".parquet" demoFS =
        .ok ("out.parquet", fs') ∧
      dirContents fs' "out.parquet" = some [] ∧
      ∀ files, ("out.parquet", files) ∈ fs'.entries → files = [] :=
  ⟨by decide,
   c9_fresh_output_directory "out.parquet" ".parquet" demoFS (by decide)⟩

/-- C10: constructing a writer resets every particle's once-written flag to
0, so under a freshly constructed writer no selected position is excluded by
the once-filter, and the first emitted chunk carries write-once values for
every one of its rows. -/
theorem c10_constructor_resets_once_flags (wod : Bool) (ptype : List PtypeVar)
    (pset : PSet) (t : Int) (d : DeletedArg) (idx : List Nat) :
    (∀ j, (getP (constructParticleFile wod ptype pset).2 j).once_written = 0) ∧
    onceFilter (constructParticleFile wod ptype pset).2 idx = idx ∧
    (∀ c, (write (constructParticleFile wod ptype pset).1
          (constructParticleFile wod ptype pset).2 t d).emitted = some c →
        c.oncePids = c.index.map Prod.fst) := by
  have hflag : ∀ j, (getP (setAllOnceZero pset) j).once_written = 0 := by
    intro j
    unfold getP setAllOnceZero
    by_cases hj : j < pset.particles.length
    · rw [List.getD_eq_getElem _ _ (by simpa using hj)]
      simp
    · rw [List.getD_eq_default _ _ (by simpa using not_lt.mp hj)]
      rfl
  have hfilter : ∀ idx' : List Nat, onceFilter (setAllOnceZero pset) idx' = idx' := by
    intro idx'
    unfold onceFilter
    apply List.filter_eq_self.mpr
    intro i _
    exact decide_eq_true (hflag i)
  have hfst : ∀ (st' : WriterState) (pset' : PSet) (idx' : List Nat),
      (emitChunk st' pset' idx').2.2.index.map Prod.fst = pidsOf pset' idx' :=
    fun st' pset' idx' => List.map_fst_zip _ _ (by simp)
  refine ⟨hflag, hfilter idx, ?_⟩
  intro c hc
  by_cases hg : (constructParticleFile wod ptype pset).1.lasttime_written ≠ some t ∧
      ((constructParticleFile wod ptype pset).1.write_ondelete = false ∨
        d ≠ DeletedArg.noDelete)
  · by_cases hpop : (constructParticleFile wod ptype pset).2.particles.length = 0
    · rw [write_eq_warn _ _ _ _ hg hpop] at hc
      exact absurd hc (by simp)
    · by_cases hlen : 0 < (selIdx (constructParticleFile wod ptype pset).2 t d).length
      · rw [write_eq_emit _ _ _ _ hg hpop hlen] at hc
        have hcc := Option.some.inj hc
        rw [← hcc]
        have honce : (emitChunk (st1Of (constructParticleFile wod ptype pset).1 t d)
            (constructParticleFile wod ptype pset).2
            (selIdx (constructParticleFile wod ptype pset).2 t d)).2.2.oncePids =
            pidsOf (constructParticleFile wod ptype pset).2
              (onceFilter (constructParticleFile wod ptype pset).2
                (selIdx (constructParticleFile wod ptype pset).2 t d)) := rfl
        rw [honce, hfst]
        show pidsOf _ (onceFilter (setAllOnceZero pset) _) = pidsOf _ _
        rw [hfilter]
      · rw [write_eq_empty_sel _ _ _ _ hg hpop hlen] at hc
        exact absurd hc (by simp)
  · rw [write_eq_skip_gate _ _ _ _ hg] at hc
    exact absurd hc (by simp)

/-- Witness for C10: a fresh writer over already-flagged particles clears the
flags and its first chunk carries once-values for all rows. -/
theorem c10_constructor_resets_once_flags_witness :
    (getP (constructParticleFile false [] demoFlagged).2 0).once_written = 0 ∧
    onceFilter (constructParticleFile false [] demoFlagged).2 [0, 1] = [0, 1] ∧
    ((write (constructParticleFile false [] demoFlagged).1
        (constructParticleFile false [] demoFlagged).2 0 DeletedArg.noDelete).emitted =
      some ((write (constructParticleFile false [] demoFlagged).1
        (constructParticleFile false [] demoFlagged).2 0 DeletedArg.noDelete).emitted.getD
          ⟨0, [], [], []⟩) →
      ((write (constructParticleFile false [] demoFlagged).1
        (constructParticleFile false [] demoFlagged).2 0
          DeletedArg.noDelete).emitted.getD ⟨0, [], [], []⟩).oncePids =
      ((write (constructParticleFile false [] demoFlagged).1
        (constructParticleFile false [] demoFlagged).2 0
          DeletedArg.noDelete).emitted.getD ⟨0, [], [], []⟩).index.map Prod.fst) := by
  refine ⟨(c10_constructor_resets_once_flags false [] demoFlagged 0
      DeletedArg.noDelete [0, 1]).1 0,
    (c10_constructor_resets_once_flags false [] demoFlagged 0
      DeletedArg.noDelete [0, 1]).2.1, ?_⟩
  exact (c10_constructor_resets_once_flags false [] demoFlagged 0
      DeletedArg.noDelete [0, 1]).2.2 _

/-- C6 counterexample: the boolean entry of the fill-value table is not the
boolean type's own maximum representable value (`True`, i.e. 1) but
`np.iinfo(np.int8).max = 127`. -/
theorem c6_counterexample :
    fill_value_map NpDtype.bool_ ≠ specFillValue NpDtype.bool_ ∧
    fill_value_map NpDtype.bool_ = FillValue.intVal 127 ∧
    specFillValue NpDtype.bool_ = FillValue.intVal 1 := by
  decide

/-- C6 amended: every floating type maps to the NaN sentinel; every integer
type maps to its own maximum representable value; the boolean type maps to
the signed 8-bit integer maximum 127 (matching its `'i1'` storage format),
not to the boolean maximum 1.  The table is referenced in the metadata
attribute dictionary, and the data columns of every emitted chunk are the
verbatim fetched collection values — no fill value is ever substituted. -/
theorem c6_amended_fill_values :
    (∀ ty : NpDtype, ty.isFloat = true → fill_value_map ty = FillValue.nan) ∧
    (fill_value_map .int8 = .intVal (2 ^ 7 - 1) ∧
     fill_value_map .int16 = .intVal (2 ^ 15 - 1) ∧
     fill_value_map .int32 = .intVal (2 ^ 31 - 1) ∧
     fill_value_map .int64 = .intVal (2 ^ 63 - 1) ∧
     fill_value_map .uint8 = .intVal (2 ^ 8 - 1) ∧
     fill_value_map .uint16 = .intVal (2 ^ 16 - 1) ∧
     fill_value_map .uint32 = .intVal (2 ^ 32 - 1) ∧
     fill_value_map .uint64 = .intVal (2 ^ 64 - 1)) ∧
    (fill_value_map .bool_ = .intVal (2 ^ 7 - 1) ∧ fmt_map .bool_ = "i1") ∧
    (∀ (reserved : List String) (st : WriterState) (v : VarDecl),
        v ∈ st.vars_to_write → v.name ∉ reserved →
        (v.name, fill_value_map v.dtype) ∈ variableAttrFills reserved st) ∧
    (∀ (st : WriterState) (pset : PSet) (idx : List Nat) (name : String)
        (vals : List Int),
        (name, vals) ∈ (emitChunk st pset idx).2.2.columns →
        ∃ v ∈ st.vars_to_write, name = convertVaroutName v.name ∧
          vals = (if v.once then onceFilter pset idx else idx).map
            fun i => (getP pset i).data v.name) := by
  refine ⟨?_, ?_, ?_, ?_, ?_⟩
  · intro ty hf
    cases ty <;> simp_all [NpDtype.isFloat, fill_value_map]
  · exact ⟨rfl, rfl, rfl, rfl, rfl, rfl, rfl, rfl⟩
  · exact ⟨rfl, rfl⟩
  · intro reserved st v hv hres
    unfold variableAttrFills
    refine List.mem_cons_of_mem _ ?_
    rw [List.mem_filterMap]
    exact ⟨v, hv, by rw [if_neg hres]⟩
  · intro st pset idx name vals hmem
    have hcols : (emitChunk st pset idx).2.2.columns =
        st.vars_to_write.filterMap fun v =>
          if convertVaroutName v.name = "trajectory" then none
          else some (convertVaroutName v.name,
            (if v.once then onceFilter pset idx else idx).map
              fun i => (getP pset i).data v.name) := rfl
    rw [hcols, List.mem_filterMap] at hmem
    obtain ⟨v, hv, hveq⟩ := hmem
    by_cases htr : convertVaroutName v.name = "trajectory"
    · rw [if_pos htr] at hveq
      exact Option.noConfusion hveq
    · rw [if_neg htr] at hveq
      have := Option.some.inj hveq
      exact ⟨v, hv, (congrArg Prod.fst this).symm, (congrArg Prod.snd this).symm⟩

theorem emitChunk_regInv (st : WriterState) (pset : PSet) (idx : List Nat)
    (h : RegInv st) : RegInv (emitChunk st pset idx).1 := by
  have hregf : (emitChunk st pset idx).1.pids_written =
      regAfter st (pidsOf pset idx) := rfl
  have hmaxf : (emitChunk st pset idx).1.maxids =
      (regAfter st (pidsOf pset idx)).length := rfl
  refine ⟨?_, ?_, ?_⟩
  · rw [hregf]
    exact regAfter_keys_nodup st _ h
  · rw [hregf, hmaxf]
    exact regAfter_map_snd st _ h
  · rw [hregf, hmaxf]

theorem st1Of_regInv (st : WriterState) (time : Int) (d : DeletedArg)
    (h : RegInv st) : RegInv (st1Of st time d) := by
  unfold st1Of
  split
  · exact ⟨h.keysNodup, h.vals, h.maxEq⟩
  · exact h

theorem write_regInv (st : WriterState) (pset : PSet) (time : Int)
    (d : DeletedArg) (h : RegInv st) : RegInv (write st pset time d).st := by
  by_cases hg : st.lasttime_written ≠ some time ∧
      (st.write_ondelete = false ∨ d ≠ DeletedArg.noDelete)
  · by_cases hpop : pset.particles.length = 0
    · rw [write_eq_warn st pset time d hg hpop]
      exact h
    · by_cases hlen : 0 < (selIdx pset time d).length
      · rw [write_eq_emit st pset time d hg hpop hlen]
        exact emitChunk_regInv _ pset _ (st1Of_regInv st time d h)
      · rw [write_eq_empty_sel st pset time d hg hpop hlen]
        exact st1Of_regInv st time d h
  · rw [write_eq_skip_gate st pset time d hg]
    exact h

theorem write_lookup_mono (st : WriterState) (pset : PSet) (time : Int)
    (d : DeletedArg) {p v : Nat} (h : lookupId p st.pids_written = some v) :
    lookupId p (write st pset time d).st.pids_written = some v := by
  by_cases hg : st.lasttime_written ≠ some time ∧
      (st.write_ondelete = false ∨ d ≠ DeletedArg.noDelete)
  · by_cases hpop : pset.particles.length = 0
    · rw [write_eq_warn st pset time d hg hpop]
      exact h
    · by_cases hlen : 0 < (selIdx pset time d).length
      · rw [write_eq_emit st pset time d hg hpop hlen]
        have h1 : lookupId p (st1Of st time d).pids_written = some v := by
          rw [st1Of_pids_written]
          exact h
        show lookupId p (regAfter (st1Of st time d)
          (pidsOf pset (selIdx pset time d))) = some v
        rw [regAfter]
        exact lookupId_append_of_some h1
      · rw [write_eq_empty_sel st pset time d hg hpop hlen]
        show lookupId p (st1Of st time d).pids_written = some v
        rw [st1Of_pids_written]
        exact h
  · rw [write_eq_skip_gate st pset time d hg]
    exact h

theorem runSim_lookup_mono (steps : List SimStep) :
    ∀ (st : WriterState) (pset : PSet) {p v : Nat},
      lookupId p st.pids_written = some v →
      lookupId p (runSim st pset steps).1.pids_written = some v := by
  induction steps with
  | nil => intro st pset p v h; exact h
  | cons s rest ih =>
      intro st pset p v h
      exact ih _ _ (write_lookup_mono st (s.mutate pset) s.time s.d h)

/-- C4: local-index assignment is a bijection that never changes: previously
registered identities keep their index through this write and any later run;
distinct identities never share an index; and when a chunk is emitted, the
newly seen identities of the batch — exactly those selected identities absent
from the registry — receive the consecutive indices `maxids, maxids + 1, ...`
in ascending identity order, after which `maxids` has grown by their
number. -/
theorem c4_local_index_bijection (st : WriterState) (h : RegInv st)
    (pset : PSet) (t : Int) (d : DeletedArg) (steps : List SimStep) :
    (∀ p v, lookupId p st.pids_written = some v →
        lookupId p (write st pset t d).st.pids_written = some v) ∧
    (∀ p v, lookupId p (write st pset t d).st.pids_written = some v →
        lookupId p (runSim (write st pset t d).st (write st pset t d).pset
          steps).1.pids_written = some v) ∧
    (∀ p q v, lookupId p (write st pset t d).st.pids_written = some v →
        lookupId q (write st pset t d).st.pids_written = some v → p = q) ∧
    ((write st pset t d).emitted.isSome = true →
        (∀ j, j < (newIdsOf st.pids_written
            (pidsOf pset (selIdx pset t d))).length →
          lookupId ((newIdsOf st.pids_written
              (pidsOf pset (selIdx pset t d))).getD j 0)
            (write st pset t d).st.pids_written = some (st.maxids + j)) ∧
        List.Pairwise (· < ·)
          (newIdsOf st.pids_written (pidsOf pset (selIdx pset t d))) ∧
        (∀ p, p ∈ newIdsOf st.pids_written (pidsOf pset (selIdx pset t d)) ↔
          p ∈ pidsOf pset (selIdx pset t d) ∧
            lookupId p st.pids_written = none) ∧
        (write st pset t d).st.maxids =
          st.maxids +
            (newIdsOf st.pids_written (pidsOf pset (selIdx pset t d))).length) := by
  refine ⟨fun p v hp => write_lookup_mono st pset t d hp,
    fun p v hp => runSim_lookup_mono steps _ _ hp, ?_, ?_⟩
  · intro p q v hp hq
    have hreg := write_regInv st pset t d h
    have hnd : ((write st pset t d).st.pids_written.map Prod.snd).Nodup := by
      rw [hreg.vals]
      exact List.nodup_range _
    exact lookupId_inj hnd hp hq
  · intro hemit
    by_cases hg : st.lasttime_written ≠ some t ∧
        (st.write_ondelete = false ∨ d ≠ DeletedArg.noDelete)
    · by_cases hpop : pset.particles.length = 0
      · rw [write_eq_warn st pset t d hg hpop] at hemit
        simp at hemit
      · by_cases hlen : 0 < (selIdx pset t d).length
        · have hreg2 : regAfter (st1Of st t d) (pidsOf pset (selIdx pset t d)) =
              st.pids_written ++ assignFrom st.maxids
                (newIdsOf st.pids_written (pidsOf pset (selIdx pset t d))) := by
            unfold regAfter
            rw [st1Of_pids_written, st1Of_maxids]
          have hwst : (write st pset t d).st.pids_written =
              regAfter (st1Of st t d) (pidsOf pset (selIdx pset t d)) := by
            rw [write_eq_emit st pset t d hg hpop hlen]
            rfl
          refine ⟨?_, newIdsOf_pairwise_lt _ _, fun p => mem_newIdsOf, ?_⟩
          · intro j hj
            have hmem : (newIdsOf st.pids_written
                (pidsOf pset (selIdx pset t d))).getD j 0 ∈
                newIdsOf st.pids_written (pidsOf pset (selIdx pset t d)) := by
              rw [List.getD_eq_getElem _ _ hj]
              exact List.getElem_mem hj
            have hnone := (mem_newIdsOf.mp hmem).2
            rw [hwst, hreg2, lookupId_append_of_none hnone]
            exact lookupId_assignFrom (newIdsOf_nodup _ _) st.maxids hj
          · have hmax : (write st pset t d).st.maxids =
                (regAfter (st1Of st t d) (pidsOf pset (selIdx pset t d))).length := by
              rw [write_eq_emit st pset t d hg hpop hlen]
              rfl
            rw [hmax, hreg2]
            simp [← h.maxEq]
        · rw [write_eq_empty_sel st pset t d hg hpop hlen] at hemit
          simp at hemit
    · rw [write_eq_skip_gate st pset t d hg] at hemit
      simp at hemit

/-- Witness for C4 at the spec's example: after registering `{10, 11, 12}`
the batch's new identities get `10 → 0+0, 11 → 0+1, 12 → 0+2`, and `maxids`
grows from 0 to 3. -/
theorem c4_local_index_bijection_witness :
    (write (initState false []) demoABC 0 DeletedArg.noDelete).emitted.isSome =
      true ∧
    lookupId 11 (write (initState false []) demoABC 0
        DeletedArg.noDelete).st.pids_written = some (0 + 1) ∧
    (write (initState false []) demoABC 0 DeletedArg.noDelete).st.maxids =
      0 + (newIdsOf (initState false []).pids_written
        (pidsOf demoABC (selIdx demoABC 0 DeletedArg.noDelete))).length := by
  have hreg : RegInv (initState false []) := (inv_init false []).toRegInv
  have h4 := (c4_local_index_bijection (initState false []) hreg demoABC 0
    DeletedArg.noDelete []).2.2.2 (by decide)
  refine ⟨by decide, ?_, h4.2.2.2⟩
  have h1 := h4.1 1 (by decide)
  have hgd : (newIdsOf (initState false []).pids_written
      (pidsOf demoABC (selIdx demoABC 0 DeletedArg.noDelete))).getD 1 0 = 11 := by
    decide
  rw [hgd] at h1
  exact h1

/-! ## Write-once bookkeeping: helper lemmas -/

theorem getP_pid_inj (pset : PSet)
    (hnd : (pset.particles.map Particle.pid).Nodup) {i j : Nat}
    (hi : i < pset.particles.length) (hj : j < pset.particles.length)
    (he : (getP pset i).pid = (getP pset j).pid) : i = j := by
  have hi' : i < (pset.particles.map Particle.pid).length := by simpa using hi
  have hj' : j < (pset.particles.map Particle.pid).length := by simpa using hj
  have he' : (pset.particles.map Particle.pid)[i] =
      (pset.particles.map Particle.pid)[j] := by
    simp only [List.getElem_map]
    rw [← List.getD_eq_getElem pset.particles default hi,
      ← List.getD_eq_getElem pset.particles default hj]
    exact he
  exact (List.Nodup.getElem_inj_iff hnd).mp he'

theorem mem_pidsOf_iff (pset : PSet) {idx : List Nat}
    (hnd : (pset.particles.map Particle.pid).Nodup)
    (hrange : ∀ i ∈ idx, i < pset.particles.length) {j : Nat}
    (hj : j < pset.particles.length) :
    (getP pset j).pid ∈ pidsOf pset idx ↔ j ∈ idx := by
  constructor
  · intro hmem
    obtain ⟨i, hi, he⟩ := List.mem_map.mp hmem
    exact getP_pid_inj pset hnd (hrange i hi) hj he ▸ hi
  · intro hmem
    exact List.mem_map.mpr ⟨j, hmem, rfl⟩

theorem mem_onceFilter {pset : PSet} {idx : List Nat} {j : Nat} :
    j ∈ onceFilter pset idx ↔ j ∈ idx ∧ (getP pset j).once_written = 0 := by
  unfold onceFilter
  simp [List.mem_filter]

theorem getP_eq_getElem (pset : PSet) {j : Nat}
    (hj : j < pset.particles.length) : getP pset j = pset.particles[j] :=
  List.getD_eq_getElem _ _ hj

theorem getP_setOnce_pid (pset : PSet) (a : List Nat) (j : Nat) :
    (getP { pset with particles := setOnceFrom a 0 pset.particles } j).pid =
      (getP pset j).pid :=
  setOnceFrom_pid a pset.particles 0 j

theorem getP_setOnce_flag (pset : PSet) (a : List Nat) (j : Nat) :
    (getP { pset with particles := setOnceFrom a 0 pset.particles } j).once_written =
      if j ∈ a ∧ j < pset.particles.length then 1
      else (getP pset j).once_written := by
  have h := setOnceFrom_flag a pset.particles 0 j
  rw [Nat.zero_add] at h
  exact h

theorem setOnce_map_pid (pset : PSet) (a : List Nat) :
    (setOnceFrom a 0 pset.particles).map Particle.pid =
      pset.particles.map Particle.pid := by
  apply List.ext_getElem (by simp)
  intro j h1 h2
  simp only [List.getElem_map]
  have hj : j < pset.particles.length := by simpa using h2
  have h1' : j < (setOnceFrom a 0 pset.particles).length := by simpa using h1
  rw [← List.getD_eq_getElem (setOnceFrom a 0 pset.particles) default h1',
    ← List.getD_eq_getElem pset.particles default hj]
  exact setOnceFrom_pid a pset.particles 0 j

theorem selChunksOf_append (pid : Nat) (a b : List Chunk) :
    selChunksOf pid (a ++ b) = selChunksOf pid a ++ selChunksOf pid b :=
  List.filter_append a b

theorem onceChunksOf_append (pid : Nat) (a b : List Chunk) :
    onceChunksOf pid (a ++ b) = onceChunksOf pid a ++ onceChunksOf pid b :=
  List.filter_append a b

theorem selChunksOf_single (pid : Nat) (c : Chunk) :
    selChunksOf pid [c] = if pid ∈ c.index.map Prod.fst then [c] else [] := by
  by_cases hm : pid ∈ c.index.map Prod.fst <;>
    simp [selChunksOf, List.filter_singleton, hm]

theorem onceChunksOf_single (pid : Nat) (c : Chunk) :
    onceChunksOf pid [c] = if pid ∈ c.oncePids then [c] else [] := by
  by_cases hm : pid ∈ c.oncePids <;>
    simp [onceChunksOf, List.filter_singleton, hm]

theorem take_one_append {α : Type} {l l2 : List α} (h : l ≠ []) :
    (l ++ l2).take 1 = l.take 1 := by
  cases l with
  | nil => exact absurd rfl h
  | cons x xs => simp

/-! ## The write-once invariant -/

/-- For every position of the (fixed-size) population: its flag is unset iff
no chunk has ever selected it, and the chunks carrying its write-once values
are exactly the first chunk that selected it. -/
structure OnceInv (st : WriterState) (pset : PSet) : Prop where
  pidsNodup : (pset.particles.map Particle.pid).Nodup
  flagSel : ∀ j, j < pset.particles.length →
    ((getP pset j).once_written = 0 ↔
      selChunksOf (getP pset j).pid st.chunks = [])
  onceEq : ∀ j, j < pset.particles.length →
    onceChunksOf (getP pset j).pid st.chunks =
      (selChunksOf (getP pset j).pid st.chunks).take 1

theorem setAllOnceZero_flag (pset : PSet) (j : Nat) :
    (getP (setAllOnceZero pset) j).once_written = 0 := by
  unfold getP setAllOnceZero
  by_cases hj : j < pset.particles.length
  · rw [List.getD_eq_getElem _ _ (by simpa using hj)]
    simp
  · rw [List.getD_eq_default _ _ (by simpa using not_lt.mp hj)]
    rfl

theorem onceInv_construct (wod : Bool) (ptype : List PtypeVar) (pset : PSet)
    (hnd : (pset.particles.map Particle.pid).Nodup) :
    OnceInv (constructParticleFile wod ptype pset).1
      (constructParticleFile wod ptype pset).2 := by
  refine ⟨?_, ?_, ?_⟩
  · show ((setAllOnceZero pset).particles.map Particle.pid).Nodup
    have hmap : (setAllOnceZero pset).particles.map Particle.pid =
        pset.particles.map Particle.pid := by
      unfold setAllOnceZero
      rw [List.map_map]
      rfl
    rw [hmap]
    exact hnd
  · intro j _
    constructor
    · intro _
      rfl
    · intro _
      exact setAllOnceZero_flag pset j
  · intro j _
    rfl

theorem onceInv_tame (st : WriterState) (pset : PSet) (s : SimStep)
    (h : OnceInv st pset) (ht : tameStep pset s = true) :
    OnceInv st (s.mutate pset) := by
  simp only [tameStep, Bool.and_eq_true, List.all_eq_true, List.mem_range,
    decide_eq_true_eq] at ht
  obtain ⟨hlen, hpt⟩ := ht
  have hmap : (s.mutate pset).particles.map Particle.pid =
      pset.particles.map Particle.pid := by
    apply List.ext_getElem (by simp [hlen])
    intro j h1 h2
    simp only [List.getElem_map]
    have hj : j < pset.particles.length := by simpa using h2
    have hj' : j < (s.mutate pset).particles.length := by simpa using h1
    rw [← List.getD_eq_getElem (s.mutate pset).particles default hj',
      ← List.getD_eq_getElem pset.particles default hj]
    exact (hpt j hj).1
  refine ⟨?_, ?_, ?_⟩
  · rw [hmap]
    exact h.pidsNodup
  · intro j hj
    have hj0 : j < pset.particles.length := by rw [← hlen]; exact hj
    rw [show (getP (s.mutate pset) j).once_written = (getP pset j).once_written
        from (hpt j hj0).2,
      show (getP (s.mutate pset) j).pid = (getP pset j).pid from (hpt j hj0).1]
    exact h.flagSel j hj0
  · intro j hj
    have hj0 : j < pset.particles.length := by rw [← hlen]; exact hj
    rw [show (getP (s.mutate pset) j).pid = (getP pset j).pid from (hpt j hj0).1]
    exact h.onceEq j hj0

theorem write_onceInv (st : WriterState) (pset : PSet) (time : Int)
    (d : DeletedArg) (h : OnceInv st pset)
    (hv : validCallW pset time d = true) :
    OnceInv (write st pset time d).st (write st pset time d).pset := by
  by_cases hg : st.lasttime_written ≠ some time ∧
      (st.write_ondelete = false ∨ d ≠ DeletedArg.noDelete)
  · by_cases hpop : pset.particles.length = 0
    · rw [write_eq_warn st pset time d hg hpop]
      exact h
    · by_cases hlen : 0 < (selIdx pset time d).length
      · rw [write_eq_emit st pset time d hg hpop hlen]
        have hrange : ∀ i ∈ selIdx pset time d, i < pset.particles.length := by
          unfold validCallW at hv
          rw [List.all_eq_true] at hv
          intro i hi
          simpa using hv i hi
        have hndp := h.pidsNodup
        have hfst : (emitChunk (st1Of st time d) pset
            (selIdx pset time d)).2.2.index.map Prod.fst =
            pidsOf pset (selIdx pset time d) :=
          List.map_fst_zip _ _ (by simp)
        have honcePids : (emitChunk (st1Of st time d) pset
            (selIdx pset time d)).2.2.oncePids =
            pidsOf pset (onceFilter pset (selIdx pset time d)) := rfl
        have hch : (emitChunk (st1Of st time d) pset (selIdx pset time d)).1.chunks =
            st.chunks ++
              [(emitChunk (st1Of st time d) pset (selIdx pset time d)).2.2] := by
          rw [show (emitChunk (st1Of st time d) pset (selIdx pset time d)).1.chunks =
              (st1Of st time d).chunks ++
                [(emitChunk (st1Of st time d) pset (selIdx pset time d)).2.2]
              from rfl, st1Of_chunks]
        have hpart : (emitChunk (st1Of st time d) pset (selIdx pset time d)).2.1 =
            ⟨setOnceFrom (onceFilter pset (selIdx pset time d)) 0 pset.particles,
              pset.toWrite⟩ := rfl
        refine ⟨?_, ?_, ?_⟩
        · show ((emitChunk (st1Of st time d) pset
              (selIdx pset time d)).2.1.particles.map Particle.pid).Nodup
          rw [hpart]
          show ((setOnceFrom (onceFilter pset (selIdx pset time d)) 0
              pset.particles).map Particle.pid).Nodup
          rw [setOnce_map_pid]
          exact hndp
        · intro j hj'
          have hj : j < pset.particles.length := by
            rw [hpart] at hj'
            simpa using hj'
          rw [hpart, getP_setOnce_pid, getP_setOnce_flag, hch,
            selChunksOf_append, selChunksOf_single, hfst]
          by_cases hjidx : j ∈ selIdx pset time d
          · have hpmem : (getP pset j).pid ∈ pidsOf pset (selIdx pset time d) :=
              (mem_pidsOf_iff pset hndp hrange hj).mpr hjidx
            rw [if_pos hpmem]
            by_cases hfl : (getP pset j).once_written = 0
            · have hjo : j ∈ onceFilter pset (selIdx pset time d) :=
                mem_onceFilter.mpr ⟨hjidx, hfl⟩
              rw [if_pos ⟨hjo, hj⟩, (h.flagSel j hj).mp hfl]
              simp
            · have hjo : j ∉ onceFilter pset (selIdx pset time d) :=
                fun hc => hfl (mem_onceFilter.mp hc).2
              rw [if_neg (fun hc => hjo hc.1)]
              constructor
              · intro h0
                exact absurd h0 hfl
              · intro hemp
                exact absurd hemp (by simp)
          · have hpnot : (getP pset j).pid ∉ pidsOf pset (selIdx pset time d) :=
              fun hc => hjidx ((mem_pidsOf_iff pset hndp hrange hj).mp hc)
            have hjo : j ∉ onceFilter pset (selIdx pset time d) :=
              fun hc => hjidx (mem_onceFilter.mp hc).1
            rw [if_neg hpnot, if_neg (fun hc => hjo hc.1), List.append_nil]
            exact h.flagSel j hj
        · intro j hj'
          have hj : j < pset.particles.length := by
            rw [hpart] at hj'
            simpa using hj'
          rw [hpart, getP_setOnce_pid, hch, onceChunksOf_append,
            onceChunksOf_single, selChunksOf_append, selChunksOf_single, hfst,
            honcePids]
          by_cases hjidx : j ∈ selIdx pset time d
          · have hpm : (getP pset j).pid ∈ pidsOf pset (selIdx pset time d) :=
              (mem_pidsOf_iff pset hndp hrange hj).mpr hjidx
            by_cases hfl : (getP pset j).once_written = 0
            · have hjo : j ∈ onceFilter pset (selIdx pset time d) :=
                mem_onceFilter.mpr ⟨hjidx, hfl⟩
              have hpo : (getP pset j).pid ∈
                  pidsOf pset (onceFilter pset (selIdx pset time d)) :=
                List.mem_map.mpr ⟨j, hjo, rfl⟩
              have hsel0 : selChunksOf (getP pset j).pid st.chunks = [] :=
                (h.flagSel j hj).mp hfl
              have honce0 : onceChunksOf (getP pset j).pid st.chunks = [] := by
                rw [h.onceEq j hj, hsel0]
                rfl
              rw [if_pos hpo, if_pos hpm, hsel0, honce0]
              rfl
            · have hpno : (getP pset j).pid ∉
                  pidsOf pset (onceFilter pset (selIdx pset time d)) := by
                intro hc
                obtain ⟨i, hio, hie⟩ := List.mem_map.mp hc
                have hiidx : i ∈ selIdx pset time d := (mem_onceFilter.mp hio).1
                have hifl : (getP pset i).once_written = 0 :=
                  (mem_onceFilter.mp hio).2
                have hij : i = j :=
                  getP_pid_inj pset hndp (hrange i hiidx) hj hie
                exact hfl (hij ▸ hifl)
              have hselne : selChunksOf (getP pset j).pid st.chunks ≠ [] :=
                fun hc => hfl ((h.flagSel j hj).mpr hc)
              rw [if_neg hpno, if_pos hpm, List.append_nil, h.onceEq j hj,
                take_one_append hselne]
          · have hpm : (getP pset j).pid ∉ pidsOf pset (selIdx pset time d) :=
              fun hc => hjidx ((mem_pidsOf_iff pset hndp hrange hj).mp hc)
            have hpno : (getP pset j).pid ∉
                pidsOf pset (onceFilter pset (selIdx pset time d)) := by
              intro hc
              obtain ⟨i, hio, hie⟩ := List.mem_map.mp hc
              have hiidx : i ∈ selIdx pset time d := (mem_onceFilter.mp hio).1
              have hij : i = j :=
                getP_pid_inj pset hndp (hrange i hiidx) hj hie
              exact hjidx (hij ▸ hiidx)
            rw [if_neg hpno, if_neg hpm, List.append_nil, List.append_nil]
            exact h.onceEq j hj
      · rw [write_eq_empty_sel st pset time d hg hpop hlen]
        refine ⟨h.pidsNodup, ?_, ?_⟩ <;> intro j hj
        · rw [show (st1Of st time d).chunks = st.chunks from st1Of_chunks st time d]
          exact h.flagSel j hj
        · rw [show (st1Of st time d).chunks = st.chunks from st1Of_chunks st time d]
          exact h.onceEq j hj
  · rw [write_eq_skip_gate st pset time d hg]
    exact h

theorem runSimW_onceInv (steps : List SimStep) :
    ∀ st pset, OnceInv st pset → validRunW st pset steps = true →
      OnceInv (runSim st pset steps).1 (runSim st pset steps).2 := by
  induction steps with
  | nil => intro st pset h _; exact h
  | cons s rest ih =>
      intro st pset h hv
      simp only [validRunW, Bool.and_eq_true] at hv
      exact ih _ _
        (write_onceInv st (s.mutate pset) s.time s.d
          (onceInv_tame st pset s h hv.1.1) hv.1.2) hv.2

/-- C2: under a freshly constructed writer over a population with distinct
identities, in any tame valid run the chunks carrying an identity's
write-once values are exactly the first chunk in which that identity was
selected; and within one emission, write-once variables are fetched only for
the selected positions whose once-written flag is unset while
write-every-time variables are fetched for all selected positions. -/
theorem c2_write_once_single_chunk (wod : Bool) (ptype : List PtypeVar)
    (pset : PSet) (steps : List SimStep)
    (hnd : (pset.particles.map Particle.pid).Nodup)
    (hv : validRunW (constructParticleFile wod ptype pset).1
      (constructParticleFile wod ptype pset).2 steps = true) :
    (∀ j, j < (runSim (constructParticleFile wod ptype pset).1
          (constructParticleFile wod ptype pset).2 steps).2.particles.length →
        onceChunksOf
            (getP (runSim (constructParticleFile wod ptype pset).1
              (constructParticleFile wod ptype pset).2 steps).2 j).pid
            (runSim (constructParticleFile wod ptype pset).1
              (constructParticleFile wod ptype pset).2 steps).1.chunks =
          (selChunksOf
              (getP (runSim (constructParticleFile wod ptype pset).1
                (constructParticleFile wod ptype pset).2 steps).2 j).pid
              (runSim (constructParticleFile wod ptype pset).1
                (constructParticleFile wod ptype pset).2 steps).1.chunks).take 1) ∧
    (∀ (st' : WriterState) (pset' : PSet) (idx' : List Nat) (v : VarDecl),
        v ∈ st'.vars_to_write → convertVaroutName v.name ≠ "trajectory" →
        (convertVaroutName v.name,
          (if v.once then onceFilter pset' idx' else idx').map
            fun i => (getP pset' i).data v.name) ∈
          (emitChunk st' pset' idx').2.2.columns ∧
        (emitChunk st' pset' idx').2.2.oncePids =
          pidsOf pset' (onceFilter pset' idx')) := by
  constructor
  · exact (runSimW_onceInv steps _ _ (onceInv_construct wod ptype pset hnd) hv).onceEq
  · intro st' pset' idx' v hvmem htr
    constructor
    · have hcols : (emitChunk st' pset' idx').2.2.columns =
          st'.vars_to_write.filterMap fun w =>
            if convertVaroutName w.name = "trajectory" then none
            else some (convertVaroutName w.name,
              (if w.once then onceFilter pset' idx' else idx').map
                fun i => (getP pset' i).data w.name) := rfl
      rw [hcols, List.mem_filterMap]
      exact ⟨v, hvmem, by rw [if_neg htr]⟩
    · rfl

/-- Witness for C2: identity 1 is selected in both chunks but its write-once
values appear only in the first chunk. -/
theorem c2_write_once_single_chunk_witness :
    (demoPSet2.particles.map Particle.pid).Nodup ∧
    validRunW (constructParticleFile false [] demoPSet2).1
      (constructParticleFile false [] demoPSet2).2 demoSteps2 = true ∧
    onceChunksOf
        (getP (runSim (constructParticleFile false [] demoPSet2).1
          (constructParticleFile false [] demoPSet2).2 demoSteps2).2 0).pid
        (runSim (constructParticleFile false [] demoPSet2).1
          (constructParticleFile false [] demoPSet2).2 demoSteps2).1.chunks =
      (selChunksOf
          (getP (runSim (constructParticleFile false [] demoPSet2).1
            (constructParticleFile false [] demoPSet2).2 demoSteps2).2 0).pid
          (runSim (constructParticleFile false [] demoPSet2).1
            (constructParticleFile false [] demoPSet2).2 demoSteps2).1.chunks).take 1 ∧
    (selChunksOf
        (getP (runSim (constructParticleFile false [] demoPSet2).1
          (constructParticleFile false [] demoPSet2).2 demoSteps2).2 0).pid
        (runSim (constructParticleFile false [] demoPSet2).1
          (constructParticleFile false [] demoPSet2).2 demoSteps2).1.chunks).length = 2 ∧
    (onceChunksOf
        (getP (runSim (constructParticleFile false [] demoPSet2).1
          (constructParticleFile false [] demoPSet2).2 demoSteps2).2 0).pid
        (runSim (constructParticleFile false [] demoPSet2).1
          (constructParticleFile false [] demoPSet2).2 demoSteps2).1.chunks).length = 1 :=
  ⟨by decide, by decide,
   (c2_write_once_single_chunk false [] demoPSet2 demoSteps2 (by decide)
     (by decide)).1 0 (by decide),
   by decide, by decide⟩

/-- Witness for C6 (amended): float32 fills with NaN, and the `age` variable
carries the float fill value in the attribute dictionary. -/
theorem c6_amended_fill_values_witness :
    NpDtype.isFloat .float32 = true ∧
    fill_value_map .float32 = FillValue.nan ∧
    (⟨"age", .float32, true⟩ : VarDecl) ∈ demoVarsState.vars_to_write ∧
    ("age", fill_value_map .float32) ∈ variableAttrFills ["time"] demoVarsState :=
  ⟨rfl, c6_amended_fill_values.1 .float32 rfl, by decide,
   c6_amended_fill_values.2.2.2.1 ["time"] demoVarsState ⟨"age", .float32, true⟩
     (by decide) (by decide)⟩

end ParcelsPF
